import Mathlib

/-!
Shallow embedding of `padic_digitwise_op.py`: rational ↔ p-adic conversion,
p-adic simplification, and the digit-wise combination loop, together with
proofs of the behavioural claims about them.

Python integers are modelled as `ℤ`.  Python `//` is floor division
(`Int.fdiv`); Python `%` is used in the source only with positive modulus,
where it agrees with `Int.emod`.  Python list indexing (including negative
indices counting from the back, and `IndexError` on out-of-range access) is
modelled by `pyGet`; a raised `IndexError` is modelled by an `Option` result
of `none`.  Unbounded `while` loops are modelled with an explicit fuel that
the termination theorems prove sufficient.
-/

/-- Python-style list indexing `l[i]`: nonnegative indices from the front,
negative indices from the back, out of range gives `none` (IndexError). -/
def pyGet (l : List ℤ) (i : ℤ) : Option ℤ :=
  if 0 ≤ i then l.get? i.toNat
  else if 0 ≤ (l.length : ℤ) + i then l.get? ((l.length : ℤ) + i).toNat
  else none

/-- Python slice `l[:k]` (negative `k` counts from the back, clamped). -/
def pySliceTo (l : List ℤ) (k : ℤ) : List ℤ :=
  if 0 ≤ k then l.take k.toNat else l.take ((l.length : ℤ) + k).toNat

/-- Python slice `l[k:]` (negative `k` counts from the back, clamped). -/
def pyDropFrom (l : List ℤ) (k : ℤ) : List ℤ :=
  if 0 ≤ k then l.drop k.toNat else l.drop (((l.length : ℤ) + k).toNat)

/-- A p-adic number as represented in the source: the tuple `(seq, rpt, shr)`
of digit sequence, repeat index and right shift. -/
structure PadicExp where
  seq : List ℤ
  rpt : ℤ
  shr : ℤ
deriving DecidableEq, Repr

/-- `simplify_rational` from the source: make the denominator positive and
divide out the gcd.  `math.gcd(0, 0) = 0` makes Python raise
`ZeroDivisionError`, modelled as `none`. -/
def simplify_rational (rat : ℤ × ℤ) : Option (ℤ × ℤ) :=
  let n := if rat.2 < 0 then -rat.1 else rat.1
  let d := if rat.2 < 0 then -rat.2 else rat.2
  let g : ℤ := Int.gcd n d
  if g = 0 then none else some (n.fdiv g, d.fdiv g)

/-- The accumulation loops of `rational_from_padic`:
`for i in range(lo, hi): acc += seq[i] * k; k *= p`.  The loop runs exactly
`(hi - lo).toNat` times, which the callers pass as structural fuel. -/
def accumLoop (seq : List ℤ) (p : ℤ) : ℕ → ℤ → ℤ → ℤ → ℤ → Option (ℤ × ℤ)
  | 0, lo, hi, acc, k => if lo < hi then none else some (acc, k)
  | fuel + 1, lo, hi, acc, k =>
    if lo < hi then
      match pyGet seq lo with
      | some dg => accumLoop seq p fuel (lo + 1) hi (acc + dg * k) (k * p)
      | none => none
    else some (acc, k)

/-- `rational_from_padic` from the source.  `pow(p, e)` with a negative `e`
yields a Python float, breaking all later integer arithmetic; this (never
reached for well-formed expansions) is modelled as `none`. -/
def rational_from_padic (padic : PadicExp) (p : ℤ) : Option (ℤ × ℤ) :=
  match accumLoop padic.seq p (padic.rpt - 0).toNat 0 padic.rpt 0 1 with
  | none => none
  | some (a, k1) =>
    match accumLoop padic.seq p ((padic.seq.length : ℤ) - padic.rpt).toNat
        padic.rpt (padic.seq.length : ℤ) 0 k1 with
    | none => none
    | some (c, _) =>
      if padic.rpt ≤ (padic.seq.length : ℤ) ∧ 0 ≤ padic.shr then
        let d := p ^ ((padic.seq.length : ℤ) - padic.rpt).toNat - 1
        some (a * d - c, d * p ^ padic.shr.toNat)
      else none

/-- The digit operation `sum_op = lambda p: lambda a, b: (a + b) % p`. -/
def sum_op (p : ℤ) : ℤ → ℤ → ℤ := fun a b => (a + b) % p

/-- The strip count `t` of `simplify_padic`: index of the first nonzero digit
among the first `shr` ones, defaulting to `min(len(seq), shr)`. -/
def stripCount (seq : List ℤ) (shr : ℤ) : ℤ :=
  match (pySliceTo seq shr).findIdx? (fun d => d != 0) with
  | some i => (i : ℤ)
  | none => min (seq.length : ℤ) shr

/-- The merge loop of `simplify_padic`:
`while rpt > 0 and seq[rpt - 1] == seq[-1]: rpt -= 1; seq.pop()`,
with structural fuel. -/
def mergeLoopF : ℕ → List ℤ → ℤ → Option (List ℤ × ℤ)
  | 0, _, _ => none
  | fuel + 1, seq, rpt =>
    if 0 < rpt then
      match pyGet seq (rpt - 1), pyGet seq (-1) with
      | some x, some y =>
        if x = y then mergeLoopF fuel seq.dropLast (rpt - 1) else some (seq, rpt)
      | _, _ => none
    else some (seq, rpt)

/-- The merge loop of `simplify_padic` (wrapper passing sufficient fuel:
each iteration decrements `rpt`, so `rpt.toNat + 1` steps always suffice). -/
def mergeLoop (seq : List ℤ) (rpt : ℤ) : Option (List ℤ × ℤ) :=
  mergeLoopF (rpt.toNat + 1) seq rpt

/-- The inner generator of `simplify_padic`'s period check:
`all(seq[j] == seq[j-i] for j in range(lo, len(seq)))`, short-circuiting like
Python's `all`. -/
def allCheckF (seq : List ℤ) (i : ℤ) : ℕ → ℤ → Option Bool
  | 0, lo => if lo < (seq.length : ℤ) then none else some true
  | fuel + 1, lo =>
    if lo < (seq.length : ℤ) then
      match pyGet seq lo, pyGet seq (lo - i) with
      | some x, some y => if x = y then allCheckF seq i fuel (lo + 1) else some false
      | _, _ => none
    else some true

/-- Wrapper passing sufficient fuel: the generator advances `lo` towards
`len(seq)`, so `(len - lo).toNat` steps always suffice. -/
def allCheck (seq : List ℤ) (i lo : ℤ) : Option Bool :=
  allCheckF seq i ((seq.length : ℤ) - lo).toNat lo

/-- The period-minimization loop of `simplify_padic`:
`for i in range(1, (len(seq) - rpt) // 2 + 1): ...`, truncating the digit
sequence at the first divisor of the period that checks out (structural
fuel form; fuel 0 behaves as loop exhaustion, never reached through the
wrapper). -/
def truncLoopF (seq : List ℤ) (rpt : ℤ) : ℕ → ℕ → Option (List ℤ)
  | 0, _ => some seq
  | fuel + 1, i =>
    if (i : ℤ) ≤ ((seq.length : ℤ) - rpt).fdiv 2 then
      if ((seq.length : ℤ) - rpt) % (i : ℤ) = 0 then
        match allCheck seq i (rpt + i) with
        | none => none
        | some true => some (pySliceTo seq (rpt + i))
        | some false => truncLoopF seq rpt fuel (i + 1)
      else truncLoopF seq rpt fuel (i + 1)
    else some seq

/-- Wrapper passing sufficient fuel: the candidate period `i` only increases,
and the loop stops beyond `(len - rpt) // 2`. -/
def truncLoop (seq : List ℤ) (rpt : ℤ) (i : ℕ) : Option (List ℤ) :=
  truncLoopF seq rpt ((((seq.length : ℤ) - rpt).fdiv 2 + 1 - i).toNat + 1) i

/-- `simplify_padic` from the source: strip leading zeroes past the dot,
merge the repeated part leftward, then minimize the period. -/
def simplify_padic (padic : PadicExp) : Option PadicExp :=
  let t := stripCount padic.seq padic.shr
  if t = (padic.seq.length : ℤ) then some ⟨[0], 0, 0⟩
  else
    match mergeLoop (pyDropFrom padic.seq t) (padic.rpt - t) with
    | none => none
    | some (seq2, rpt2) =>
      match truncLoop seq2 rpt2 1 with
      | none => none
      | some seq3 => some ⟨seq3, rpt2, padic.shr - t⟩

/-- First-match lookup in an association list, as a Python dict membership
test plus read (`s in seen` / `seen[s]`). -/
def lookupFst {σ : Type} [DecidableEq σ] : List (σ × ℕ) → σ → Option ℕ
  | [], _ => none
  | (a, j) :: rest, s => if a = s then some j else lookupFst rest s

/-- The generic cycle-detection loop shared by `padic_from_rational` and
`padic_digitwise_op`: repeatedly emit an output for the current state and
step, stopping when a state repeats and returning the accumulated outputs
together with the first occurrence index of the repeated state.  `emit`
returning `none` models a Python `IndexError` while reading digits; fuel
exhaustion is `none` (the termination theorems show the chosen fuels are
never exhausted). -/
def genLoop {σ : Type} [DecidableEq σ] (step : σ → σ) (emit : σ → Option ℤ) :
    ℕ → σ → List ℤ → List (σ × ℕ) → Option (List ℤ × ℕ)
  | 0, _, _, _ => none
  | fuel + 1, s, acc, seen =>
    match lookupFst seen s with
    | some j => some (acc, j)
    | none =>
      match emit s with
      | none => none
      | some v => genLoop step emit fuel (step s) (acc ++ [v]) (seen ++ [(s, acc.length)])

/-- The denominator-stripping loop of `padic_from_rational`:
`while d % p == 0: d //= p; (n //= p) or (shr += 1)`.  The guard `1 < p` and
`0 < d` matches every reachable call (Python would not terminate on `p = 1`
and is never called with `d ≤ 0`). -/
def stripPF (p : ℤ) : ℕ → ℤ → ℤ → ℤ → ℤ × ℤ × ℤ
  | 0, n, d, shr => (n, d, shr)
  | fuel + 1, n, d, shr =>
    if 1 < p ∧ 0 < d ∧ d % p = 0 then
      if n % p = 0 then stripPF p fuel (n.fdiv p) (d.fdiv p) shr
      else stripPF p fuel n (d.fdiv p) (shr + 1)
    else (n, d, shr)

/-- Wrapper passing sufficient fuel: `d` shrinks by a factor `p ≥ 2` in each
iteration, so `d.toNat + 1` steps always suffice. -/
def stripP (p n d : ℤ) (shr : ℤ) : ℤ × ℤ × ℤ :=
  stripPF p (d.toNat + 1) n d shr

/-- `pow(d, -1, p)`: the modular inverse of `d` mod `p`, the unique value in
`[0, p)` with `d * modInv d p ≡ 1 (mod p)` when `gcd(d, p) = 1`.  For the
prime moduli this program uses, Fermat's little theorem gives that value as
`d ^ (p - 2) mod p`, which is what is defined here. -/
def modInv (d p : ℤ) : ℤ := (d ^ (p - 2).toNat) % p

/-- One step of the residual-state recurrence of `padic_from_rational`:
`i = (n * di) % p; n -= d * i; n //= p`. -/
def padicStep (p d di n : ℤ) : ℤ :=
  (n - d * ((n * di) % p)).fdiv p

/-- The digit emitted by `padic_from_rational` for residual state `n`. -/
def padicEmit (p di n : ℤ) : Option ℤ := some ((n * di) % p)

/-- The fuel used for the conversion loop: strictly more than the number of
integers in `[min n₀ (1 - d), max n₀ 0]`, the interval the residual state is
proved to stay inside. -/
def padicFuel (n d : ℤ) : ℕ := (max n 0 - min n (1 - d)).toNat + 2

/-- `padic_from_rational` from the source.  `pow(d, -1, p)` raises
`ValueError` when `d` is not invertible mod `p`, modelled as `none`. -/
def padic_from_rational (rat : ℤ × ℤ) (p : ℤ) : Option PadicExp :=
  let s := stripP p rat.1 rat.2 0
  if Int.gcd s.2.1 p = 1 then
    match genLoop (padicStep p s.2.1 (modInv s.2.1 p)) (padicEmit p (modInv s.2.1 p))
        (padicFuel s.1 s.2.1) s.1 [] [] with
    | some (seq, rpt) => some ⟨seq, (rpt : ℤ), s.2.2⟩
    | none => none
  else none

/-- One step of the index pair of `padic_digitwise_op`: advance both indices,
wrapping each back to its own repeat index at the end of its sequence. -/
def combStep (lenA rptA lenB rptB : ℤ) (s : ℤ × ℤ) : ℤ × ℤ :=
  (if s.1 + 1 = lenA then rptA else s.1 + 1,
   if s.2 + 1 = lenB then rptB else s.2 + 1)

/-- The digit emitted by `padic_digitwise_op` for an index pair: a negative
index reads as digit 0, otherwise the stored digit (IndexError ↦ `none`). -/
def combEmit (op : ℤ → ℤ → ℤ) (seqA seqB : List ℤ) (s : ℤ × ℤ) : Option ℤ :=
  match (if 0 ≤ s.1 then pyGet seqA s.1 else some 0),
        (if 0 ≤ s.2 then pyGet seqB s.2 else some 0) with
  | some da, some db => some (op da db)
  | _, _ => none

/-- The fuel used for the combination loop: strictly more than the padding
plus both lengths plus the product of the lengths, which the termination
theorem shows bounds the number of distinct index pairs ever visited. -/
def combFuel (a b : PadicExp) : ℕ :=
  (a.shr - b.shr).natAbs + a.seq.length + b.seq.length + a.seq.length * b.seq.length + 2

/-- `padic_digitwise_op` from the source: synchronized digit-wise combination
of two expansions by cycle detection on the index pair. -/
def padic_digitwise_op (op : ℤ → ℤ → ℤ) (padic_a padic_b : PadicExp) : Option PadicExp :=
  match genLoop
      (combStep (padic_a.seq.length : ℤ) padic_a.rpt (padic_b.seq.length : ℤ) padic_b.rpt)
      (combEmit op padic_a.seq padic_b.seq)
      (combFuel padic_a padic_b)
      (min 0 (padic_a.shr - padic_b.shr), min 0 (padic_b.shr - padic_a.shr)) [] [] with
  | some (seq, rpt) => some ⟨seq, (rpt : ℤ), max padic_a.shr padic_b.shr⟩
  | none => none

/-- The value `Σ l[i] * p^i` of a little-endian digit list. -/
def digitsVal (p : ℤ) : List ℤ → ℤ
  | [] => 0
  | x :: xs => x + p * digitsVal p xs

/-- Well-formedness of an expansion for base `p`, as assumed by the claims:
nonempty digit list with digits in `[0, p)`, repeat index in range (so the
period is at least 1), nonnegative shift. -/
def wellFormed (p : ℤ) (x : PadicExp) : Prop :=
  x.seq ≠ [] ∧ 0 ≤ x.rpt ∧ x.rpt < (x.seq.length : ℤ) ∧ 0 ≤ x.shr ∧
    ∀ d ∈ x.seq, 0 ≤ d ∧ d < p

instance (p : ℤ) (x : PadicExp) : Decidable (wellFormed p x) := by
  unfold wellFormed; infer_instance

/-- The period `len(seq) - rpt` of an expansion. -/
def period (x : PadicExp) : ℕ := x.seq.length - x.rpt.toNat

/-- The digit of an expansion at logical place `t` (place value
`p ^ (t - shr)`): a stored digit for `t < len(seq)`, and beyond the stored
digits the repeating part cycling back to `rpt`. -/
def digitAt (x : PadicExp) (t : ℕ) : ℤ :=
  if t < x.seq.length then x.seq.getD t 0
  else x.seq.getD (x.rpt.toNat + (t - x.rpt.toNat) % period x) 0

/-- The digit stream of an operand of `padic_digitwise_op`, aligned to the
other operand: the first `pad` logical places (where only the more-shifted
operand has digits) read as 0. -/
def padStream (x : PadicExp) (pad t : ℕ) : ℤ :=
  if t < pad then 0 else digitAt x (t - pad)

/-- Closed form for a combination-loop index within its own sequence: after
`len` steps it cycles through `[rpt, len)`. -/
def cycIdx (len rpt s : ℕ) : ℕ :=
  if s < len then s else rpt + (s - rpt) % (len - rpt)

/-- Closed form for a combination-loop index at time `t`, including the
initial padding phase where it is negative. -/
def combIdx (pad len rpt t : ℕ) : ℤ :=
  if t < pad then (t : ℤ) - pad else (cycIdx len rpt (t - pad) : ℤ)

/-- The numerator `a * (p^t - 1) - c` computed by `rational_from_padic`. -/
def ratNum (x : PadicExp) (p : ℤ) : ℤ :=
  digitsVal p (x.seq.take x.rpt.toNat) * (p ^ period x - 1) -
    p ^ x.rpt.toNat * digitsVal p (x.seq.drop x.rpt.toNat)

/-- The denominator `(p^t - 1) * p^shr` computed by `rational_from_padic`. -/
def ratDen (x : PadicExp) (p : ℤ) : ℤ := (p ^ period x - 1) * p ^ x.shr.toNat

/-- The success condition of iteration `i` of the period-minimization loop of
`simplify_padic`: `i` divides the current period and every stored tail digit
matches the one `i` places earlier. -/
def tpasses (seq : List ℤ) (rpt : ℤ) (i : ℕ) : Prop :=
  ((seq.length : ℤ) - rpt) % (i : ℤ) = 0 ∧
    ∀ j : ℕ, rpt.toNat + i ≤ j → j < seq.length → seq.getD j 0 = seq.getD (j - i) 0

/-! ### Lemmas about the generic cycle-detection loop -/

theorem lookupFst_none_iff {σ : Type} [DecidableEq σ] (l : List (σ × ℕ)) (s : σ) :
    lookupFst l s = none ↔ ∀ pr ∈ l, pr.1 ≠ s := by
  induction l with
  | nil => simp [lookupFst]
  | cons hd tl ih =>
    obtain ⟨a, j⟩ := hd
    by_cases h : a = s <;> simp [lookupFst, h, ih]

theorem lookupFst_mem {σ : Type} [DecidableEq σ] {l : List (σ × ℕ)} {s : σ} {j : ℕ}
    (h : lookupFst l s = some j) : (s, j) ∈ l := by
  induction l with
  | nil => simp [lookupFst] at h
  | cons hd tl ih =>
    obtain ⟨a, j0⟩ := hd
    by_cases ha : a = s
    · simp [lookupFst, ha] at h
      simp [ha, h]
    · simp [lookupFst, ha] at h
      exact List.mem_cons_of_mem _ (ih h)

theorem lookupFst_isSome_of_mem {σ : Type} [DecidableEq σ] {l : List (σ × ℕ)} {s : σ} {j : ℕ}
    (h : (s, j) ∈ l) : (lookupFst l s).isSome := by
  induction l with
  | nil => simp at h
  | cons hd tl ih =>
    obtain ⟨a, j0⟩ := hd
    by_cases ha : a = s
    · simp [lookupFst, ha]
    · rcases List.mem_cons.mp h with h1 | h1
      · exact absurd (congrArg Prod.fst h1).symm ha
      · simpa [lookupFst, ha] using ih h1

theorem genLoop_spec_aux {σ : Type} [DecidableEq σ] (step : σ → σ) (emit : σ → Option ℤ)
    (s₀ : σ) :
    ∀ (fuel k : ℕ) (acc : List ℤ) (res : List ℤ × ℕ),
      acc.length = k →
      (∀ j, j < k → emit (step^[j] s₀) = some (acc.getD j 0)) →
      (∀ j1 j2, j1 < j2 → j2 < k → step^[j1] s₀ ≠ step^[j2] s₀) →
      genLoop step emit fuel (step^[k] s₀)
        acc ((List.range k).map (fun j => (step^[j] s₀, j))) = some res →
      res.2 < res.1.length ∧
        step^[res.1.length] s₀ = step^[res.2] s₀ ∧
        (∀ j, j < res.1.length → emit (step^[j] s₀) = some (res.1.getD j 0)) ∧
        (∀ j1 j2, j1 < j2 → j2 < res.1.length → step^[j1] s₀ ≠ step^[j2] s₀) := by
  intro fuel
  induction fuel with
  | zero => intro k acc res _ _ _ h; simp [genLoop] at h
  | succ fuel ih =>
    intro k acc res hlen hemit hinj hrun
    rw [genLoop] at hrun
    rcases hlu : lookupFst ((List.range k).map (fun j => (step^[j] s₀, j))) (step^[k] s₀) with
      _ | j
    · rw [hlu] at hrun
      rcases hem : emit (step^[k] s₀) with _ | v
      · rw [hem] at hrun; simp at hrun
      · rw [hem] at hrun
        have hlen2 : (acc ++ [v]).length = k + 1 := by simp [hlen]
        have hemit2 : ∀ j, j < k + 1 → emit (step^[j] s₀) = some ((acc ++ [v]).getD j 0) := by
          intro j hj
          rcases Nat.lt_succ_iff_lt_or_eq.mp hj with hj | hj
          · rw [List.getD_eq_getElem?_getD, List.getElem?_append_left (by omega),
              ← List.getD_eq_getElem?_getD]
            exact hemit j hj
          · subst hj
            rw [List.getD_eq_getElem?_getD, List.getElem?_append_right (by omega), hlen]
            simpa using hem
        have hnots : ∀ pr ∈ (List.range k).map (fun j => (step^[j] s₀, j)),
            pr.1 ≠ step^[k] s₀ := (lookupFst_none_iff _ _).mp hlu
        have hinj2 : ∀ j1 j2, j1 < j2 → j2 < k + 1 → step^[j1] s₀ ≠ step^[j2] s₀ := by
          intro j1 j2 h12 h2
          rcases Nat.lt_succ_iff_lt_or_eq.mp h2 with h2 | h2
          · exact hinj j1 j2 h12 h2
          · subst h2
            exact hnots (step^[j1] s₀, j1) (by simp; omega)
        have hseen2 : ((List.range k).map (fun j => (step^[j] s₀, j))) ++ [(step^[k] s₀, acc.length)]
            = (List.range (k + 1)).map (fun j => (step^[j] s₀, j)) := by
          rw [List.range_succ, List.map_append, hlen]; simp
        rw [hseen2, ← Function.iterate_succ_apply' step k s₀] at hrun
        exact ih (k + 1) (acc ++ [v]) res hlen2 hemit2 hinj2 hrun
    · rw [hlu] at hrun
      have hmem := lookupFst_mem hlu
      simp only [List.mem_map, List.mem_range] at hmem
      obtain ⟨j', hj', hj'eq⟩ := hmem
      have hj1 : step^[j'] s₀ = step^[k] s₀ := congrArg Prod.fst hj'eq
      have hj2 : j' = j := congrArg Prod.snd hj'eq
      subst hj2
      cases hrun
      refine ⟨by simpa [hlen] using hj', by simpa [hlen] using hj1.symm, ?_, ?_⟩
      · intro j hj; exact hemit j (by simpa [hlen] using hj)
      · intro j1 j2 h12 h2; exact hinj j1 j2 h12 (by simpa [hlen] using h2)

theorem genLoop_spec {σ : Type} [DecidableEq σ] {step : σ → σ} {emit : σ → Option ℤ}
    {s₀ : σ} {fuel : ℕ} {seq : List ℤ} {rpt : ℕ}
    (h : genLoop step emit fuel s₀ [] [] = some (seq, rpt)) :
    rpt < seq.length ∧
      step^[seq.length] s₀ = step^[rpt] s₀ ∧
      (∀ j, j < seq.length → emit (step^[j] s₀) = some (seq.getD j 0)) ∧
      (∀ j1 j2, j1 < j2 → j2 < seq.length → step^[j1] s₀ ≠ step^[j2] s₀) := by
  have := genLoop_spec_aux step emit s₀ fuel 0 [] (seq, rpt) rfl (by omega) (by omega)
    (by simpa using h)
  exact this

theorem genLoop_isSome_aux {σ : Type} [DecidableEq σ] (step : σ → σ) (emit : σ → Option ℤ)
    (s₀ : σ) (t1 t2 : ℕ) (h12 : t1 < t2) (heq : step^[t1] s₀ = step^[t2] s₀)
    (hemit : ∀ j, j < t2 → (emit (step^[j] s₀)).isSome) :
    ∀ (fuel k : ℕ) (acc : List ℤ),
      acc.length = k → k ≤ t2 → t2 + 1 ≤ fuel + k →
      (genLoop step emit fuel (step^[k] s₀)
        acc ((List.range k).map (fun j => (step^[j] s₀, j)))).isSome := by
  intro fuel
  induction fuel with
  | zero => intro k acc _ hk hf; omega
  | succ fuel ih =>
    intro k acc hlen hk hf
    rw [genLoop]
    rcases hlu : lookupFst ((List.range k).map (fun j => (step^[j] s₀, j))) (step^[k] s₀) with
      _ | j
    · have hklt : k < t2 := by
        rcases Nat.lt_or_ge k t2 with h | h
        · exact h
        · exfalso
          have hk2 : k = t2 := le_antisymm hk h
          subst hk2
          have hmem : (step^[k] s₀, t1) ∈ (List.range k).map (fun j => (step^[j] s₀, j)) := by
            simp only [List.mem_map, List.mem_range]
            exact ⟨t1, h12, by rw [heq]⟩
          have := lookupFst_isSome_of_mem hmem
          rw [hlu] at this; simp at this
      rcases hem : emit (step^[k] s₀) with _ | v
      · have := hemit k hklt; rw [hem] at this; simp at this
      · have hseen2 : ((List.range k).map (fun j => (step^[j] s₀, j))) ++ [(step^[k] s₀, acc.length)]
            = (List.range (k + 1)).map (fun j => (step^[j] s₀, j)) := by
          rw [List.range_succ, List.map_append, hlen]; simp
        have := ih (k + 1) (acc ++ [v]) (by simp [hlen]) hklt (by omega)
        rw [← hseen2, Function.iterate_succ_apply' step k s₀] at this
        simpa using this
    · simp

theorem genLoop_isSome {σ : Type} [DecidableEq σ] {step : σ → σ} {emit : σ → Option ℤ}
    {s₀ : σ} {fuel t1 t2 : ℕ} (h12 : t1 < t2) (heq : step^[t1] s₀ = step^[t2] s₀)
    (hemit : ∀ j, j < t2 → (emit (step^[j] s₀)).isSome) (hfuel : t2 + 1 ≤ fuel) :
    (genLoop step emit fuel s₀ [] []).isSome := by
  have := genLoop_isSome_aux step emit s₀ t1 t2 h12 heq hemit fuel 0 [] rfl (by omega)
    (by omega)
  simpa using this

/-! ### The closed form of `rational_from_padic` -/

theorem digitsVal_append (p : ℤ) (l1 l2 : List ℤ) :
    digitsVal p (l1 ++ l2) = digitsVal p l1 + p ^ l1.length * digitsVal p l2 := by
  induction l1 with
  | nil => simp [digitsVal]
  | cons x xs ih => simp [digitsVal, ih, pow_succ]; ring

theorem pyGet_in_range {l : List ℤ} {i : ℤ} (h0 : 0 ≤ i) (h1 : i < (l.length : ℤ)) :
    pyGet l i = some (l.getD i.toNat 0) := by
  have hlt : i.toNat < l.length := by omega
  simp [pyGet, h0, hlt]

theorem accumLoop_spec (seq : List ℤ) (p : ℤ) :
    ∀ (fuel : ℕ) (lo hi acc k : ℤ), 0 ≤ lo → lo ≤ hi → hi ≤ (seq.length : ℤ) →
      (hi - lo).toNat = fuel →
      accumLoop seq p fuel lo hi acc k =
        some (acc + k * digitsVal p ((seq.drop lo.toNat).take (hi - lo).toNat),
          k * p ^ (hi - lo).toNat) := by
  intro fuel
  induction fuel with
  | zero =>
    intro lo hi acc k h0 h1 h2 hf
    have hnlt : ¬ lo < hi := by omega
    rw [accumLoop, if_neg hnlt]
    have h00 : (hi - lo).toNat = 0 := by omega
    simp [h00, digitsVal]
  | succ fuel ih =>
    intro lo hi acc k h0 h1 h2 hf
    have hlt : lo < hi := by omega
    have hstep : accumLoop seq p (fuel + 1) lo hi acc k =
        accumLoop seq p fuel (lo + 1) hi (acc + seq.getD lo.toNat 0 * k) (k * p) := by
      rw [accumLoop, if_pos hlt, pyGet_in_range h0 (by omega)]
    rw [hstep, ih (lo + 1) hi (acc + seq.getD lo.toNat 0 * k) (k * p) (by omega) (by omega) h2
      (by omega)]
    have hcons : seq.drop lo.toNat = seq.getD lo.toNat 0 :: seq.drop (lo.toNat + 1) := by
      have hl : lo.toNat < seq.length := by omega
      rw [List.drop_eq_getElem_cons hl]
      simp [List.getElem?_eq_getElem hl]
    have h1n : (hi - lo).toNat = (hi - (lo + 1)).toNat + 1 := by omega
    have h2n : (lo + 1).toNat = lo.toNat + 1 := by omega
    rw [h1n, h2n, hcons]
    simp only [List.take_succ_cons, digitsVal, pow_succ]
    refine congrArg some (Prod.ext ?_ ?_) <;> simp <;> ring

theorem rational_from_padic_spec (x : PadicExp) (p : ℤ) (h0 : 0 ≤ x.rpt)
    (h1 : x.rpt ≤ (x.seq.length : ℤ)) (h2 : 0 ≤ x.shr) :
    rational_from_padic x p = some (ratNum x p, ratDen x p) := by
  have hA := accumLoop_spec x.seq p (x.rpt - 0).toNat 0 x.rpt 0 1 le_rfl h0 h1 rfl
  have hC := accumLoop_spec x.seq p ((x.seq.length : ℤ) - x.rpt).toNat x.rpt
    (x.seq.length : ℤ) 0 (1 * p ^ (x.rpt - 0).toNat) h0 h1 le_rfl rfl
  simp only [rational_from_padic, hA, hC, if_pos (And.intro h1 h2)]
  have e1 : (x.rpt - 0).toNat = x.rpt.toNat := by omega
  have e2 : ((x.seq.length : ℤ) - x.rpt).toNat = period x := by
    unfold period; omega
  have e3 : (x.seq.drop (0 : ℤ).toNat).take (x.rpt - 0).toNat = x.seq.take x.rpt.toNat := by
    simp
  have e4 : (x.seq.drop x.rpt.toNat).take (((x.seq.length : ℤ) - x.rpt)).toNat =
      x.seq.drop x.rpt.toNat := by
    apply List.take_of_length_le
    simp
    omega
  rw [e3, e4, e1, e2]
  refine congrArg some (Prod.ext ?_ ?_) <;> simp only [ratNum, ratDen] <;> ring

/-! ### The rational → p-adic conversion loop -/

theorem fdiv_exact {p m : ℤ} (h : p ∣ m) : p * m.fdiv p = m := by
  rw [Int.fdiv_eq_ediv_of_dvd h]
  exact Int.mul_ediv_cancel' h

theorem modInv_spec {d p : ℤ} (hpp : Prime p) (hp2 : 2 ≤ p) (hg : Int.gcd d p = 1) :
    (d * modInv d p) % p = 1 % p := by
  have hq : p.natAbs.Prime := Int.prime_iff_natAbs_prime.mp hpp
  haveI : Fact p.natAbs.Prime := ⟨hq⟩
  have hpn : (p.natAbs : ℤ) = p := Int.natAbs_of_nonneg (by omega)
  have hx : (d : ZMod p.natAbs) ≠ 0 := by
    rw [Ne, ZMod.intCast_zmod_eq_zero_iff_dvd, hpn]
    intro hdvd
    obtain ⟨u, v, huv⟩ := Int.gcd_eq_one_iff_coprime.mp hg
    have hone : p ∣ 1 := by
      rw [← huv]
      exact dvd_add (hdvd.mul_left u) (Dvd.intro_left v rfl)
    have := Int.le_of_dvd one_pos hone
    omega
  have hferm : (d : ZMod p.natAbs) ^ (p.natAbs - 1) = 1 :=
    ZMod.pow_card_sub_one_eq_one hx
  have h1 : (d * modInv d p) % p = (d * d ^ (p - 2).toNat) % p := by
    rw [modInv, Int.mul_emod, Int.emod_emod_of_dvd _ dvd_rfl, ← Int.mul_emod]
  have hcast : ((d * d ^ (p - 2).toNat : ℤ) : ZMod p.natAbs) =
      ((1 : ℤ) : ZMod p.natAbs) := by
    push_cast
    have hexp : (p - 2).toNat + 1 = p.natAbs - 1 := by omega
    calc (d : ZMod p.natAbs) * (d : ZMod p.natAbs) ^ (p - 2).toNat
        = (d : ZMod p.natAbs) ^ ((p - 2).toNat + 1) := by rw [pow_succ]; ring
      _ = 1 := by rw [hexp, hferm]
  have hmod := (ZMod.intCast_eq_intCast_iff _ _ _).mp hcast
  unfold Int.ModEq at hmod
  rw [hpn] at hmod
  rw [h1, hmod]

theorem padicStep_exact {p d di : ℤ} (n : ℤ) (hdi : (d * di) % p = 1 % p) :
    p ∣ (n - d * ((n * di) % p)) := by
  have h1 : p ∣ (d * di - 1) :=
    Int.dvd_of_emod_eq_zero (Int.emod_eq_emod_iff_emod_sub_eq_zero.mp hdi)
  have h2 : (n * di) % p = n * di - p * ((n * di) / p) := Int.emod_def _ _
  have h3 : n - d * ((n * di) % p) =
      (-n) * (d * di - 1) + p * (d * ((n * di) / p)) := by
    rw [h2]; ring
  rw [h3]
  exact dvd_add (Dvd.dvd.mul_left h1 _) (Dvd.intro _ rfl)

theorem padicStep_eq {p d di : ℤ} (n : ℤ) (hdi : (d * di) % p = 1 % p) :
    p * padicStep p d di n = n - d * ((n * di) % p) :=
  fdiv_exact (padicStep_exact n hdi)

theorem padicStep_mem {p d di n n0 : ℤ} (hp : 1 < p) (hd : 0 < d)
    (hdi : (d * di) % p = 1 % p)
    (h : min n0 (1 - d) ≤ n ∧ n ≤ max n0 0) :
    min n0 (1 - d) ≤ padicStep p d di n ∧ padicStep p d di n ≤ max n0 0 := by
  have hi0 : 0 ≤ (n * di) % p := Int.emod_nonneg _ (by omega)
  have hip : (n * di) % p < p := Int.emod_lt_of_pos _ (by omega)
  have hm := @padicStep_eq p d di n hdi
  set i := (n * di) % p
  set m := padicStep p d di n
  have hmin1 : min n0 (1 - d) ≤ 1 - d := min_le_right _ _
  have hmax1 : (0 : ℤ) ≤ max n0 0 := le_max_right _ _
  constructor
  · rcases le_or_lt (1 - d) n with hc | hc
    · have h1 : 1 ≤ p * (m + d) := by nlinarith
      have h2 : 0 < m + d := by nlinarith
      omega
    · have h1 : p * n ≤ p * m := by nlinarith
      have h2 : n ≤ m := le_of_mul_le_mul_left h1 (by omega)
      exact le_trans h.1 h2
  · rcases le_or_lt m 0 with hc | hc
    · omega
    · have h1 : p * m ≤ n := by nlinarith
      have h2 : m < p * m := by nlinarith
      have := h.2
      omega

theorem padicOrbit_mem {p d di : ℤ} (hp : 1 < p) (hd : 0 < d)
    (hdi : (d * di) % p = 1 % p) (n0 : ℤ) (k : ℕ) :
    min n0 (1 - d) ≤ (padicStep p d di)^[k] n0 ∧ (padicStep p d di)^[k] n0 ≤ max n0 0 := by
  induction k with
  | zero => exact ⟨min_le_left _ _, le_max_left _ _⟩
  | succ k ih =>
    rw [Function.iterate_succ_apply']
    exact padicStep_mem hp hd hdi ih

theorem padicOrbit_repeat {p d di : ℤ} (hp : 1 < p) (hd : 0 < d)
    (hdi : (d * di) % p = 1 % p) (n0 : ℤ) :
    ∃ t1 t2 : ℕ, t1 < t2 ∧ t2 ≤ (max n0 0 - min n0 (1 - d)).toNat + 1 ∧
      (padicStep p d di)^[t1] n0 = (padicStep p d di)^[t2] n0 := by
  set S := (max n0 0 - min n0 (1 - d)).toNat with hS
  have hminmax : min n0 (1 - d) ≤ max n0 0 :=
    le_trans (min_le_left _ _) (le_max_left _ _)
  have hcard : (Finset.Icc (min n0 (1 - d)) (max n0 0)).card <
      (Finset.range (S + 2)).card := by
    rw [Int.card_Icc, Finset.card_range]
    omega
  have hmaps : ∀ k ∈ Finset.range (S + 2),
      (padicStep p d di)^[k] n0 ∈ Finset.Icc (min n0 (1 - d)) (max n0 0) := by
    intro k _
    rw [Finset.mem_Icc]
    exact padicOrbit_mem hp hd hdi n0 k
  obtain ⟨x, hx, y, hy, hxy, hf⟩ :=
    Finset.exists_ne_map_eq_of_card_lt_of_maps_to hcard hmaps
  rw [Finset.mem_range] at hx hy
  rcases lt_or_gt_of_ne hxy with h | h
  · exact ⟨x, y, h, by omega, hf⟩
  · exact ⟨y, x, h, by omega, hf.symm⟩

theorem padic_genLoop_isSome {p d di n0 : ℤ} (hp : 1 < p) (hd : 0 < d)
    (hdi : (d * di) % p = 1 % p) :
    (genLoop (padicStep p d di) (padicEmit p di) (padicFuel n0 d) n0 [] []).isSome := by
  obtain ⟨t1, t2, h12, ht2, heq⟩ := padicOrbit_repeat hp hd hdi n0
  refine genLoop_isSome h12 heq (fun j _ => by simp [padicEmit]) ?_
  unfold padicFuel
  omega

theorem padic_invariant {p d1 di n1 : ℤ} (hdi : (d1 * di) % p = 1 % p)
    {seq : List ℤ}
    (hemit : ∀ j, j < seq.length →
      padicEmit p di ((padicStep p d1 di)^[j] n1) = some (seq.getD j 0)) :
    ∀ k, k ≤ seq.length →
      n1 = d1 * digitsVal p (seq.take k) + ((padicStep p d1 di)^[k] n1) * p ^ k := by
  intro k
  induction k with
  | zero => simp [digitsVal]
  | succ k ih =>
    intro hk1
    have hk : k < seq.length := by omega
    have hIH := ih (by omega)
    have hg : seq.getD k 0 = (((padicStep p d1 di)^[k] n1) * di) % p := by
      have := hemit k hk
      unfold padicEmit at this
      exact (Option.some.injEq _ _ ▸ this).symm
    have hstep : p * ((padicStep p d1 di)^[k + 1] n1) =
        ((padicStep p d1 di)^[k] n1) - d1 * (((padicStep p d1 di)^[k] n1 * di) % p) := by
      rw [Function.iterate_succ_apply']
      exact padicStep_eq _ hdi
    have htake : seq.take (k + 1) = seq.take k ++ [seq.getD k 0] := by
      rw [List.take_succ]
      simp [List.getElem?_eq_getElem hk]
    rw [htake, digitsVal_append]
    simp only [digitsVal]
    rw [← hg] at hstep
    have hlen : (seq.take k).length = k := by simp; omega
    rw [hlen, pow_succ]
    linear_combination hIH - p ^ k * hstep

theorem stripPF_facts (p : ℤ) (hp : 1 < p) :
    ∀ (fuel : ℕ) (n d shr : ℤ), 0 < d → d.toNat < fuel →
      0 < (stripPF p fuel n d shr).2.1 ∧
      (stripPF p fuel n d shr).2.1 % p ≠ 0 ∧
      shr ≤ (stripPF p fuel n d shr).2.2 ∧
      (stripPF p fuel n d shr).1 * d =
        n * (stripPF p fuel n d shr).2.1 * p ^ ((stripPF p fuel n d shr).2.2 - shr).toNat ∧
      (shr < (stripPF p fuel n d shr).2.2 → (stripPF p fuel n d shr).1 % p ≠ 0) ∧
      (n % p ≠ 0 → (stripPF p fuel n d shr).1 = n) := by
  intro fuel
  induction fuel with
  | zero => intro n d shr hd hf; omega
  | succ fuel ih =>
    intro n d shr hd hf
    by_cases hg : 1 < p ∧ 0 < d ∧ d % p = 0
    · have hdvd : p ∣ d := Int.dvd_of_emod_eq_zero hg.2.2
      have hdx : p * d.fdiv p = d := fdiv_exact hdvd
      have hd'pos : 0 < d.fdiv p := by nlinarith
      have hd'lt : d.fdiv p < d := by nlinarith
      have hd'fuel : (d.fdiv p).toNat < fuel := by omega
      by_cases hn : n % p = 0
      · have hndvd : p ∣ n := Int.dvd_of_emod_eq_zero hn
        have hnx : p * n.fdiv p = n := fdiv_exact hndvd
        have hrec : stripPF p (fuel + 1) n d shr =
            stripPF p fuel (n.fdiv p) (d.fdiv p) shr := by
          rw [stripPF]
          simp [hg, hn]
        rw [hrec]
        set S := stripPF p fuel (n.fdiv p) (d.fdiv p) shr with hSdef
        obtain ⟨c1, c2, c3, c4, c5, c6⟩ := ih (n.fdiv p) (d.fdiv p) shr hd'pos hd'fuel
        rw [← hSdef] at c1 c2 c3 c4 c5 c6
        refine ⟨c1, c2, c3, ?_, c5, fun hcon => absurd hn hcon⟩
        linear_combination p * c4 - S.1 * hdx + S.2.1 * p ^ (S.2.2 - shr).toNat * hnx
      · have hrec : stripPF p (fuel + 1) n d shr =
            stripPF p fuel n (d.fdiv p) (shr + 1) := by
          rw [stripPF]
          simp [hg, hn]
        rw [hrec]
        set S := stripPF p fuel n (d.fdiv p) (shr + 1) with hSdef
        obtain ⟨c1, c2, c3, c4, c5, c6⟩ := ih n (d.fdiv p) (shr + 1) hd'pos hd'fuel
        rw [← hSdef] at c1 c2 c3 c4 c5 c6
        have hshr : shr ≤ S.2.2 := by omega
        have hexp : (S.2.2 - shr).toNat = (S.2.2 - (shr + 1)).toNat + 1 := by omega
        refine ⟨c1, c2, hshr, ?_, fun _ => ?_, fun _ => c6 hn⟩
        · rw [hexp, pow_succ]
          linear_combination p * c4 - S.1 * hdx
        · rw [c6 hn]; exact hn
    · have hbase : stripPF p (fuel + 1) n d shr = (n, d, shr) := by
        rw [stripPF, if_neg hg]
      rw [hbase]
      have hdp : d % p ≠ 0 := by
        intro hc; exact hg ⟨hp, hd, hc⟩
      exact ⟨hd, hdp, le_rfl, by simp, fun hc => absurd hc (lt_irrefl _), fun _ => rfl⟩

theorem stripP_facts (p : ℤ) (hp : 1 < p) (n d shr : ℤ) (hd : 0 < d) :
    0 < (stripP p n d shr).2.1 ∧
    (stripP p n d shr).2.1 % p ≠ 0 ∧
    shr ≤ (stripP p n d shr).2.2 ∧
    (stripP p n d shr).1 * d =
      n * (stripP p n d shr).2.1 * p ^ ((stripP p n d shr).2.2 - shr).toNat ∧
    (shr < (stripP p n d shr).2.2 → (stripP p n d shr).1 % p ≠ 0) ∧
    (n % p ≠ 0 → (stripP p n d shr).1 = n) :=
  stripPF_facts p hp (d.toNat + 1) n d shr hd (by omega)

theorem gcd_one_of_prime_not_dvd {d1 p : ℤ} (hpp : Prime p) (hnd : d1 % p ≠ 0) :
    Int.gcd d1 p = 1 := by
  have hp' : p.natAbs.Prime := Int.prime_iff_natAbs_prime.mp hpp
  rcases hp'.eq_one_or_self_of_dvd (Int.gcd d1 p) (Nat.gcd_dvd_right d1.natAbs p.natAbs)
    with h | h
  · exact h
  · exfalso
    apply hnd
    apply Int.emod_eq_zero_of_dvd
    have h2 : p.natAbs ∣ d1.natAbs := h ▸ Nat.gcd_dvd_left d1.natAbs p.natAbs
    exact Int.natAbs_dvd_natAbs.mp h2

theorem padic_from_rational_char {n d p : ℤ} (hp2 : 2 ≤ p) (hpp : Prime p) (hd : 0 < d) :
    ∃ x : PadicExp, padic_from_rational (n, d) p = some x ∧
      0 ≤ x.rpt ∧ x.rpt < (x.seq.length : ℤ) ∧ 0 ≤ x.shr ∧
      (∀ dg ∈ x.seq, 0 ≤ dg ∧ dg < p) ∧
      (0 < x.shr → x.seq.getD 0 0 ≠ 0) ∧
      ratNum x p * d = n * ratDen x p := by
  rcases hsp : stripP p n d 0 with ⟨n1, d1, shr⟩
  have hfacts := stripP_facts p (by omega) n d 0 hd
  rw [hsp] at hfacts
  dsimp only at hfacts
  obtain ⟨hd1pos, hd1p, hshr0, hval, hshrd, -⟩ := hfacts
  have hgcd : Int.gcd d1 p = 1 := gcd_one_of_prime_not_dvd hpp hd1p
  have hdi : (d1 * modInv d1 p) % p = 1 % p := modInv_spec hpp hp2 hgcd
  have hsome := @padic_genLoop_isSome p d1 (modInv d1 p) n1
    (by omega) hd1pos hdi
  obtain ⟨⟨seq, rpt⟩, hres⟩ := Option.isSome_iff_exists.mp hsome
  have heq : padic_from_rational (n, d) p = some ⟨seq, (rpt : ℤ), shr⟩ := by
    simp only [padic_from_rational, hsp]
    rw [if_pos hgcd, hres]
  obtain ⟨hrlt, horb, hemit, hinj⟩ := genLoop_spec hres
  have hlenpos : 0 < seq.length := by omega
  refine ⟨⟨seq, (rpt : ℤ), shr⟩, heq, by positivity, ?_, hshr0, ?_, ?_, ?_⟩
  · show ((rpt : ℕ) : ℤ) < ((seq.length : ℕ) : ℤ)
    exact_mod_cast hrlt
  · intro dg hdg
    obtain ⟨j, hj, rfl⟩ := List.mem_iff_getElem.mp hdg
    have hgd : seq[j] = seq.getD j 0 := by
      simp [List.getD_eq_getElem?_getD, List.getElem?_eq_getElem hj]
    rw [hgd]
    have := hemit j hj
    unfold padicEmit at this
    have hv : seq.getD j 0 = ((padicStep p d1 (modInv d1 p))^[j] n1 * modInv d1 p) % p :=
      (Option.some.injEq _ _ ▸ this).symm
    rw [hv]
    exact ⟨Int.emod_nonneg _ (by omega), Int.emod_lt_of_pos _ (by omega)⟩
  · intro hshrpos h0
    have hn1p : n1 % p ≠ 0 := hshrd hshrpos
    have h00 := hemit 0 hlenpos
    unfold padicEmit at h00
    simp only [Function.iterate_zero, id_eq] at h00
    have hv : seq.getD 0 0 = (n1 * modInv d1 p) % p := (Option.some.injEq _ _ ▸ h00).symm
    simp only [PadicExp.mk.injEq] at h0
    rw [hv] at h0
    apply hn1p
    have e1 : n1 % p = (n1 * (d1 * modInv d1 p)) % p := by
      rw [Int.mul_emod n1 (d1 * modInv d1 p), hdi, ← Int.mul_emod, mul_one]
    rw [e1, (by ring : n1 * (d1 * modInv d1 p) = (n1 * modInv d1 p) * d1), Int.mul_emod, h0]
    simp
  · have hinv := padic_invariant hdi hemit
    have hK := hinv seq.length le_rfl
    have hR := hinv rpt (le_of_lt hrlt)
    rw [horb] at hK
    set r := (padicStep p d1 (modInv d1 p))^[rpt] n1 with hr
    set t := seq.length - rpt with ht
    have hlen : seq.length = rpt + t := by omega
    have hsplit : digitsVal p seq = digitsVal p (seq.take rpt) +
        p ^ rpt * digitsVal p (seq.drop rpt) := by
      conv_lhs => rw [← List.take_append_drop rpt seq]
      rw [digitsVal_append, List.length_take, Nat.min_eq_left (le_of_lt hrlt)]
    rw [List.take_length] at hK
    rw [hlen, pow_add] at hK
    have hstep1 : ratNum ⟨seq, (rpt : ℤ), shr⟩ p * d1 =
        n1 * (p ^ t - 1) := by
      have hper : period ⟨seq, (rpt : ℤ), shr⟩ = t := by
        simp [period, ht]
      unfold ratNum
      rw [hper]
      simp only [Int.toNat_natCast]
      linear_combination hK - p ^ t * hR + d1 * hsplit
    have hshrnn : (shr - 0).toNat = shr.toNat := by omega
    rw [hshrnn] at hval
    have hcancel : (ratNum ⟨seq, (rpt : ℤ), shr⟩ p * d) * d1 =
        (n * ratDen ⟨seq, (rpt : ℤ), shr⟩ p) * d1 := by
      have hper : period ⟨seq, (rpt : ℤ), shr⟩ = t := by
        simp [period, ht]
      unfold ratDen
      rw [hper]
      linear_combination d * hstep1 + (p ^ t - 1) * hval
    exact mul_right_cancel₀ (by omega) hcancel

/-! ### Uniqueness of the reduced form of a fraction -/

theorem simplify_rational_pos_eq {n d : ℤ} (hd : 0 < d) :
    simplify_rational (n, d) =
      some (n / (Int.gcd n d : ℤ), d / (Int.gcd n d : ℤ)) := by
  have hg0 : Int.gcd n d ≠ 0 := by
    intro hc
    rw [Int.gcd_eq_zero_iff] at hc
    omega
  have hnd : ¬ (d < 0) := by omega
  unfold simplify_rational
  simp only [hnd, if_neg, if_false]
  rw [if_neg (by exact_mod_cast hg0)]
  rw [Int.fdiv_eq_ediv_of_dvd Int.gcd_dvd_left, Int.fdiv_eq_ediv_of_dvd Int.gcd_dvd_right]

theorem simplify_rational_eq_of_cross {n1 d1 n2 d2 : ℤ} (h1 : 0 < d1) (h2 : 0 < d2)
    (hc : n1 * d2 = n2 * d1) :
    simplify_rational (n1, d1) = simplify_rational (n2, d2) := by
  rw [simplify_rational_pos_eq h1, simplify_rational_pos_eq h2]
  set g1 : ℤ := (Int.gcd n1 d1 : ℤ) with hg1def
  set g2 : ℤ := (Int.gcd n2 d2 : ℤ) with hg2def
  have hg1ne : Int.gcd n1 d1 ≠ 0 := by
    intro hcc; rw [Int.gcd_eq_zero_iff] at hcc; omega
  have hg2ne : Int.gcd n2 d2 ≠ 0 := by
    intro hcc; rw [Int.gcd_eq_zero_iff] at hcc; omega
  have hg1pos : 0 < g1 := by positivity
  have hg2pos : 0 < g2 := by positivity
  have ha1 : g1 * (n1 / g1) = n1 := Int.mul_ediv_cancel' Int.gcd_dvd_left
  have hb1 : g1 * (d1 / g1) = d1 := Int.mul_ediv_cancel' Int.gcd_dvd_right
  have ha2 : g2 * (n2 / g2) = n2 := Int.mul_ediv_cancel' Int.gcd_dvd_left
  have hb2 : g2 * (d2 / g2) = d2 := Int.mul_ediv_cancel' Int.gcd_dvd_right
  set a1 := n1 / g1
  set b1 := d1 / g1
  set a2 := n2 / g2
  set b2 := d2 / g2
  have hb1pos : 0 < b1 := by nlinarith
  have hb2pos : 0 < b2 := by nlinarith
  have hcop1 : Int.gcd a1 b1 = 1 := Int.gcd_div_gcd_div_gcd (Nat.pos_of_ne_zero hg1ne)
  have hcop2 : Int.gcd a2 b2 = 1 := Int.gcd_div_gcd_div_gcd (Nat.pos_of_ne_zero hg2ne)
  have hcross : a1 * b2 = a2 * b1 := by
    have hgg : g1 * g2 ≠ 0 := by positivity
    apply mul_left_cancel₀ hgg
    calc g1 * g2 * (a1 * b2) = (g1 * a1) * (g2 * b2) := by ring
      _ = n1 * d2 := by rw [ha1, hb2]
      _ = n2 * d1 := hc
      _ = (g2 * a2) * (g1 * b1) := by rw [ha2, hb1]
      _ = g1 * g2 * (a2 * b1) := by ring
  have hco1 : IsCoprime b1 a1 := (Int.gcd_eq_one_iff_coprime.mp hcop1).symm
  have hco2 : IsCoprime b2 a2 := (Int.gcd_eq_one_iff_coprime.mp hcop2).symm
  have hd12 : b1 ∣ b2 := by
    refine hco1.dvd_of_dvd_mul_left ?_
    exact Dvd.intro a2 (by linarith [hcross])
  have hd21 : b2 ∣ b1 := by
    refine hco2.dvd_of_dvd_mul_left ?_
    exact Dvd.intro a1 (by linarith [hcross])
  have hbeq : b1 = b2 := Int.dvd_antisymm (by omega) (by omega) hd12 hd21
  have haeq : a1 = a2 := by
    apply mul_right_cancel₀ (show b1 ≠ 0 by omega)
    have hx := hcross
    rw [← hbeq] at hx
    exact hx
  rw [haeq, hbeq]

/-! ### Digit streams of expansions -/

theorem digitAt_stored {x : PadicExp} {t : ℕ} (h : t < x.seq.length) :
    digitAt x t = x.seq.getD t 0 := by
  unfold digitAt
  rw [if_pos h]

theorem stream_period_iter {s : ℕ → ℤ} {r P : ℕ}
    (hs : ∀ u, r ≤ u → s (u + P) = s u) :
    ∀ (q t : ℕ), r ≤ t → s (t + q * P) = s t := by
  intro q
  induction q with
  | zero => intro t _; simp
  | succ q ih =>
    intro t ht
    have h1 : t + (q + 1) * P = (t + q * P) + P := by ring
    rw [h1, hs _ (by omega), ih t ht]

theorem stream_mod_eq {s : ℕ → ℤ} {r P : ℕ} (hP : 0 < P)
    (hs : ∀ u, r ≤ u → s (u + P) = s u) (t : ℕ) (ht : r ≤ t) :
    s t = s (r + (t - r) % P) := by
  have h1 : t = (r + (t - r) % P) + ((t - r) / P) * P := by
    have hdm := Nat.div_add_mod (t - r) P
    have hcm : P * ((t - r) / P) = ((t - r) / P) * P := Nat.mul_comm _ _
    omega
  conv_lhs => rw [h1]
  exact stream_period_iter hs _ _ (by omega)

theorem digitAt_period {x : PadicExp} (h0 : 0 ≤ x.rpt)
    (h1 : x.rpt.toNat < x.seq.length) :
    ∀ t, x.rpt.toNat ≤ t → digitAt x (t + period x) = digitAt x t := by
  intro t ht
  have hP : 0 < period x := by unfold period; omega
  unfold digitAt period
  rcases Nat.lt_or_ge t x.seq.length with hc | hc
  · rw [if_pos hc, if_neg (by unfold period at hP; omega)]
    have e1 : (t + (x.seq.length - x.rpt.toNat) - x.rpt.toNat) %
        (x.seq.length - x.rpt.toNat) = (t - x.rpt.toNat) % (x.seq.length - x.rpt.toNat) := by
      have e2 : t + (x.seq.length - x.rpt.toNat) - x.rpt.toNat =
          (t - x.rpt.toNat) + (x.seq.length - x.rpt.toNat) := by omega
      rw [e2, Nat.add_mod_right]
    rw [e1, Nat.mod_eq_of_lt (by omega)]
    congr 1
    omega
  · rw [if_neg (by omega), if_neg (by omega)]
    congr 2
    have e2 : t + (x.seq.length - x.rpt.toNat) - x.rpt.toNat =
        (t - x.rpt.toNat) + (x.seq.length - x.rpt.toNat) := by omega
    rw [e2, Nat.add_mod_right]

theorem digitAt_eq_of_stream {x : PadicExp} {s : ℕ → ℤ} (h0 : 0 ≤ x.rpt)
    (h1 : x.rpt.toNat < x.seq.length)
    (hstore : ∀ j, j < x.seq.length → x.seq.getD j 0 = s j)
    (hper : ∀ u, x.rpt.toNat ≤ u → s (u + period x) = s u) :
    ∀ t, digitAt x t = s t := by
  intro t
  have hP : 0 < period x := by unfold period; omega
  rcases Nat.lt_or_ge t x.seq.length with hc | hc
  · rw [digitAt_stored hc]
    exact hstore t hc
  · have hidx : x.rpt.toNat + (t - x.rpt.toNat) % period x < x.seq.length := by
      have := Nat.mod_lt (t - x.rpt.toNat) hP
      unfold period at *
      omega
    have e1 : digitAt x t = x.seq.getD (x.rpt.toNat + (t - x.rpt.toNat) % period x) 0 := by
      unfold digitAt
      rw [if_neg (by omega)]
    rw [e1, hstore _ hidx]
    exact (stream_mod_eq hP hper t (by omega)).symm

/-! ### The merge loop of `simplify_padic` -/

theorem digitsVal_split (p : ℤ) (seq : List ℤ) (k : ℕ) (hk : k ≤ seq.length) :
    digitsVal p seq = digitsVal p (seq.take k) + p ^ k * digitsVal p (seq.drop k) := by
  conv_lhs => rw [← List.take_append_drop k seq]
  rw [digitsVal_append, List.length_take, Nat.min_eq_left hk]

theorem ratNum_alt (x : PadicExp) (p : ℤ) (h1 : x.rpt.toNat ≤ x.seq.length) :
    ratNum x p = digitsVal p (x.seq.take x.rpt.toNat) * p ^ period x - digitsVal p x.seq := by
  unfold ratNum
  have hsplit := digitsVal_split p x.seq x.rpt.toNat h1
  linear_combination hsplit

theorem getD_eq_getElem {l : List ℤ} {j : ℕ} (h : j < l.length) : l.getD j 0 = l[j] := by
  simp [List.getD_eq_getElem?_getD, List.getElem?_eq_getElem h]

theorem take_succ_getD {l : List ℤ} {j : ℕ} (h : j < l.length) :
    l.take (j + 1) = l.take j ++ [l.getD j 0] := by
  rw [List.take_succ]
  simp [List.getElem?_eq_getElem h]

theorem seq_split_last (seq : List ℤ) (h : 0 < seq.length) :
    seq = seq.dropLast ++ [seq.getD (seq.length - 1) 0] := by
  conv_lhs => rw [← List.dropLast_append_getLast (l := seq) (by intro hc; subst hc; simp at h)]
  congr 1
  rw [List.getLast_eq_getElem, getD_eq_getElem (by omega)]

theorem ratNum_merge_step (p : ℤ) {seq : List ℤ} {rpt : ℤ} (shr shr2 : ℤ)
    (h1 : 1 ≤ rpt) (h2 : rpt < (seq.length : ℤ))
    (heq : seq.getD (rpt.toNat - 1) 0 = seq.getD (seq.length - 1) 0) :
    ratNum ⟨seq.dropLast, rpt - 1, shr2⟩ p = ratNum ⟨seq, rpt, shr⟩ p := by
  have hlen : 1 ≤ seq.length := by omega
  have hlen2 : seq.dropLast.length = seq.length - 1 := by simp
  have hrN : (rpt - 1).toNat = rpt.toNat - 1 := by omega
  have hper2 : period ⟨seq.dropLast, rpt - 1, shr2⟩ = period ⟨seq, rpt, shr⟩ := by
    unfold period
    simp only [hlen2, hrN]
    omega
  rw [ratNum_alt _ p (by simp only [hlen2, hrN]; omega),
    ratNum_alt _ p (by simp only; omega), hper2]
  simp only
  set t := period ⟨seq, rpt, shr⟩ with ht
  have htval : rpt.toNat - 1 + t = seq.length - 1 := by
    unfold period at ht
    simp only at ht
    omega
  have htake : seq.dropLast.take ((rpt - 1).toNat) = seq.take (rpt.toNat - 1) := by
    rw [hrN, List.dropLast_eq_take, List.take_take, Nat.min_eq_left (by omega)]
  have hsplitlast : digitsVal p seq =
      digitsVal p seq.dropLast + p ^ (seq.length - 1) * seq.getD (seq.length - 1) 0 := by
    conv_lhs => rw [seq_split_last seq (by omega)]
    rw [digitsVal_append, hlen2]
    simp [digitsVal]
  have hsplita : digitsVal p (seq.take rpt.toNat) =
      digitsVal p (seq.take (rpt.toNat - 1)) + p ^ (rpt.toNat - 1) * seq.getD (rpt.toNat - 1) 0 := by
    have hr1 : rpt.toNat = (rpt.toNat - 1) + 1 := by omega
    conv_lhs => rw [hr1, take_succ_getD (by omega)]
    rw [digitsVal_append, List.length_take, Nat.min_eq_left (by omega)]
    simp [digitsVal]
  rw [htake]
  have hpow : p ^ (rpt.toNat - 1) * p ^ t = p ^ (seq.length - 1) := by
    rw [← pow_add, htval]
  linear_combination hsplitlast - p ^ t * hsplita - seq.getD (rpt.toNat - 1) 0 * hpow -
    p ^ (seq.length - 1) * heq

theorem pyGet_last {seq : List ℤ} (h : 0 < seq.length) :
    pyGet seq (-1) = some (seq.getD (seq.length - 1) 0) := by
  unfold pyGet
  rw [if_neg (by omega), if_pos (by push_cast; omega)]
  have he : ((seq.length : ℤ) + (-1)).toNat = seq.length - 1 := by omega
  rw [he, List.get?_eq_getElem?, List.getElem?_eq_getElem (by omega)]
  rw [getD_eq_getElem (by omega)]

theorem digitAt_merge_step {seq : List ℤ} {rpt : ℤ} (shr shr2 : ℤ)
    (h1 : 1 ≤ rpt) (h2 : rpt < (seq.length : ℤ))
    (heq : seq.getD (rpt.toNat - 1) 0 = seq.getD (seq.length - 1) 0) :
    ∀ u, digitAt ⟨seq.dropLast, rpt - 1, shr2⟩ u = digitAt ⟨seq, rpt, shr⟩ u := by
  have hlen2 : seq.dropLast.length = seq.length - 1 := by simp
  have hrN : (rpt - 1).toNat = rpt.toNat - 1 := by omega
  have hper2 : period ⟨seq.dropLast, rpt - 1, shr2⟩ = period ⟨seq, rpt, shr⟩ := by
    unfold period
    simp only [hlen2, hrN]
    omega
  have hperpos : 0 < period ⟨seq, rpt, shr⟩ := by
    unfold period
    simp only
    omega
  apply digitAt_eq_of_stream (by simp only; omega)
    (by simp only [hlen2, hrN]; omega)
  · intro j hj
    rw [hlen2] at hj
    have hd : seq.dropLast.getD j 0 = seq.getD j 0 := by
      rw [getD_eq_getElem (by omega), getD_eq_getElem (by omega)]
      simp [List.getElem?_eq_getElem (show j < seq.length from by omega)]
    rw [hd, digitAt_stored (by simp only; omega)]
  · intro u hu
    rw [hper2]
    simp only [hrN] at hu
    rcases Nat.lt_or_ge u rpt.toNat with hc | hc
    · have hu1 : u = rpt.toNat - 1 := by omega
      subst hu1
      have he1 : rpt.toNat - 1 + period ⟨seq, rpt, shr⟩ = seq.length - 1 := by
        unfold period
        simp only
        omega
      rw [he1, digitAt_stored (x := ⟨seq, rpt, shr⟩) (by simp only; omega),
        digitAt_stored (x := ⟨seq, rpt, shr⟩) (by simp only; omega)]
      exact heq.symm
    · exact digitAt_period (by simp only; omega) (by simp only; omega) u hc

theorem mergeLoopF_spec (p : ℤ) :
    ∀ (fuel : ℕ) (seq : List ℤ) (rpt : ℤ), rpt.toNat < fuel → 0 ≤ rpt →
      rpt < (seq.length : ℤ) →
      ∃ seq2 rpt2, mergeLoopF fuel seq rpt = some (seq2, rpt2) ∧
        0 ≤ rpt2 ∧ rpt2 ≤ rpt ∧ rpt2 < (seq2.length : ℤ) ∧
        seq2.length - rpt2.toNat = seq.length - rpt.toNat ∧
        (∀ shr shr2 : ℤ, ratNum ⟨seq2, rpt2, shr2⟩ p = ratNum ⟨seq, rpt, shr⟩ p) ∧
        (∀ (shr shr2 : ℤ) (u : ℕ), digitAt ⟨seq2, rpt2, shr2⟩ u = digitAt ⟨seq, rpt, shr⟩ u) := by
  intro fuel
  induction fuel with
  | zero =>
    intro seq rpt hf h0 hlt
    omega
  | succ fuel ih =>
    intro seq rpt hf h0 hlt
    by_cases hpos : 0 < rpt
    · have hg1 : pyGet seq (rpt - 1) = some (seq.getD (rpt - 1).toNat 0) :=
        pyGet_in_range (by omega) (by omega)
      have hgl : pyGet seq (-1) = some (seq.getD (seq.length - 1) 0) :=
        pyGet_last (by omega)
      by_cases heq : seq.getD (rpt - 1).toNat 0 = seq.getD (seq.length - 1) 0
      · have hrw : mergeLoopF (fuel + 1) seq rpt = mergeLoopF fuel seq.dropLast (rpt - 1) := by
          rw [mergeLoopF, if_pos hpos, hg1, hgl]
          show (if seq.getD (rpt - 1).toNat 0 = seq.getD (seq.length - 1) 0 then
            mergeLoopF fuel seq.dropLast (rpt - 1) else some (seq, rpt)) = _
          rw [if_pos heq]
        have hlen2 : seq.dropLast.length = seq.length - 1 := by simp
        obtain ⟨seq2, rpt2, hm, c0, c1, c2, c3, c4, c5⟩ :=
          ih seq.dropLast (rpt - 1) (by omega) (by omega) (by rw [hlen2]; push_cast; omega)
        have hrN : (rpt - 1).toNat = rpt.toNat - 1 := by omega
        refine ⟨seq2, rpt2, by rw [hrw]; exact hm, c0, by omega, c2, ?_, ?_, ?_⟩
        · rw [c3, hlen2, hrN]
          omega
        · intro shr shr2
          rw [c4 shr shr2]
          exact ratNum_merge_step p shr shr (by omega) hlt (by rw [← hrN]; exact heq)
        · intro shr shr2 u
          rw [c5 shr shr2 u]
          exact digitAt_merge_step shr shr (by omega) hlt (by rw [← hrN]; exact heq) u
      · refine ⟨seq, rpt, ?_, h0, le_rfl, hlt, rfl, fun _ _ => rfl, fun _ _ _ => rfl⟩
        rw [mergeLoopF, if_pos hpos, hg1, hgl]
        show (if seq.getD (rpt - 1).toNat 0 = seq.getD (seq.length - 1) 0 then
          mergeLoopF fuel seq.dropLast (rpt - 1) else some (seq, rpt)) = _
        rw [if_neg heq]
    · refine ⟨seq, rpt, ?_, h0, le_rfl, hlt, rfl, fun _ _ => rfl, fun _ _ _ => rfl⟩
      rw [mergeLoopF, if_neg hpos]

theorem mergeLoop_spec (p : ℤ) (seq : List ℤ) (rpt : ℤ) (h0 : 0 ≤ rpt)
    (hlt : rpt < (seq.length : ℤ)) :
    ∃ seq2 rpt2, mergeLoop seq rpt = some (seq2, rpt2) ∧
      0 ≤ rpt2 ∧ rpt2 ≤ rpt ∧ rpt2 < (seq2.length : ℤ) ∧
      seq2.length - rpt2.toNat = seq.length - rpt.toNat ∧
      (∀ shr shr2 : ℤ, ratNum ⟨seq2, rpt2, shr2⟩ p = ratNum ⟨seq, rpt, shr⟩ p) ∧
      (∀ (shr shr2 : ℤ) (u : ℕ), digitAt ⟨seq2, rpt2, shr2⟩ u = digitAt ⟨seq, rpt, shr⟩ u) :=
  mergeLoopF_spec p (rpt.toNat + 1) seq rpt (by omega) h0 hlt

/-! ### The period-minimization loop of `simplify_padic` -/

theorem pySliceTo_nonneg {l : List ℤ} {k : ℤ} (h : 0 ≤ k) :
    pySliceTo l k = l.take k.toNat := by
  unfold pySliceTo
  rw [if_pos h]

theorem allCheckF_spec (seq : List ℤ) (i : ℕ) (hi : 0 < i) :
    ∀ (fuel lo : ℕ), i ≤ lo → seq.length ≤ lo + fuel →
      (allCheckF seq (i : ℤ) fuel (lo : ℤ) = some true ∨
        allCheckF seq (i : ℤ) fuel (lo : ℤ) = some false) ∧
      (allCheckF seq (i : ℤ) fuel (lo : ℤ) = some true ↔
        ∀ j : ℕ, lo ≤ j → j < seq.length → seq.getD j 0 = seq.getD (j - i) 0) := by
  intro fuel
  induction fuel with
  | zero =>
    intro lo hilo hlen
    have hstop : ¬ ((lo : ℤ) < (seq.length : ℤ)) := by push_cast; omega
    rw [allCheckF, if_neg hstop]
    refine ⟨Or.inl rfl, ?_⟩
    simp only [true_iff]
    intro j hj1 hj2
    omega
  | succ fuel ih =>
    intro lo hilo hlen
    rcases Nat.lt_or_ge lo seq.length with hc | hc
    · have hlo0 : (0 : ℤ) ≤ (lo : ℤ) := by positivity
      have hg1 : pyGet seq (lo : ℤ) = some (seq.getD lo 0) := by
        have := pyGet_in_range (l := seq) (i := (lo : ℤ)) hlo0 (by push_cast; omega)
        simpa using this
      have hg2 : pyGet seq ((lo : ℤ) - (i : ℤ)) = some (seq.getD (lo - i) 0) := by
        have := pyGet_in_range (l := seq) (i := (lo : ℤ) - (i : ℤ)) (by push_cast; omega)
          (by push_cast; omega)
        have he : ((lo : ℤ) - (i : ℤ)).toNat = lo - i := by omega
        rw [he] at this
        exact this
      have hunf : allCheckF seq (i : ℤ) (fuel + 1) (lo : ℤ) =
          (if seq.getD lo 0 = seq.getD (lo - i) 0 then allCheckF seq (i : ℤ) fuel ((lo : ℤ) + 1)
           else some false) := by
        rw [allCheckF, if_pos (by push_cast; omega), hg1, hg2]
      by_cases heq : seq.getD lo 0 = seq.getD (lo - i) 0
      · have hcast : ((lo : ℤ) + 1) = ((lo + 1 : ℕ) : ℤ) := by push_cast; ring
        rw [hunf, if_pos heq, hcast]
        obtain ⟨hd, hiff⟩ := ih (lo + 1) (by omega) (by omega)
        refine ⟨hd, hiff.trans ?_⟩
        constructor
        · intro htail j hj1 hj2
          rcases Nat.lt_or_ge j (lo + 1) with hj | hj
          · have : j = lo := by omega
            subst this
            exact heq
          · exact htail j hj hj2
        · intro hall j hj1 hj2
          exact hall j (by omega) hj2
      · rw [hunf, if_neg heq]
        refine ⟨Or.inr rfl, ?_⟩
        constructor
        · intro hc2; cases hc2
        · intro hall
          exact absurd (hall lo le_rfl hc) heq
    · have hstop : ¬ ((lo : ℤ) < (seq.length : ℤ)) := by push_cast; omega
      rw [allCheckF, if_neg hstop]
      refine ⟨Or.inl rfl, ?_⟩
      simp only [true_iff]
      intro j hj1 hj2
      omega


theorem allCheck_spec (seq : List ℤ) (i : ℕ) (hi : 0 < i) (lo : ℕ) (hilo : i ≤ lo) :
    (allCheck seq (i : ℤ) (lo : ℤ) = some true ∨
      allCheck seq (i : ℤ) (lo : ℤ) = some false) ∧
    (allCheck seq (i : ℤ) (lo : ℤ) = some true ↔
      ∀ j : ℕ, lo ≤ j → j < seq.length → seq.getD j 0 = seq.getD (j - i) 0) :=
  allCheckF_spec seq i hi ((seq.length : ℤ) - (lo : ℤ)).toNat lo hilo (by omega)

theorem truncLoopF_spec (seq : List ℤ) (rpt : ℤ) (h0 : 0 ≤ rpt)
    (hlt : rpt < (seq.length : ℤ)) :
    ∀ (fuel i0 : ℕ), 1 ≤ i0 →
      ((((seq.length : ℤ) - rpt).fdiv 2 + 1 - i0).toNat < fuel) →
      ∃ out, truncLoopF seq rpt fuel i0 = some out ∧
        ((out = seq ∧ ∀ i : ℕ, i0 ≤ i → (i : ℤ) ≤ ((seq.length : ℤ) - rpt).fdiv 2 →
            ¬ tpasses seq rpt i) ∨
         (∃ i : ℕ, i0 ≤ i ∧ (i : ℤ) ≤ ((seq.length : ℤ) - rpt).fdiv 2 ∧
            tpasses seq rpt i ∧
            (∀ i' : ℕ, i0 ≤ i' → i' < i → ¬ tpasses seq rpt i') ∧
            out = seq.take (rpt.toNat + i))) := by
  intro fuel
  induction fuel with
  | zero =>
    intro i0 hi0 hfuel
    omega
  | succ fuel ih =>
    intro i0 hi0 hfuel
    rcases le_or_lt ((i0 : ℤ)) (((seq.length : ℤ) - rpt).fdiv 2) with hc | hc
    · have hch := allCheck_spec seq i0 (by omega) (rpt.toNat + i0) (by omega)
      have hcast : rpt + (i0 : ℤ) = ((rpt.toNat + i0 : ℕ) : ℤ) := by push_cast; omega
      by_cases hdvd : ((seq.length : ℤ) - rpt) % (i0 : ℤ) = 0
      · rcases hch.1 with htrue | hfalse
        · have hexp : truncLoopF seq rpt (fuel + 1) i0 =
              some (pySliceTo seq (rpt + (i0 : ℤ))) := by
            rw [truncLoopF, if_pos hc, if_pos hdvd, hcast, htrue]
          refine ⟨_, hexp, Or.inr ⟨i0, le_rfl, hc, ⟨hdvd, hch.2.mp htrue⟩,
            fun i' h1 h2 => by omega, ?_⟩⟩
          rw [pySliceTo_nonneg (by omega)]
          congr 1
          omega
        · have hnp : ¬ tpasses seq rpt i0 := by
            intro hp
            have := hch.2.mpr hp.2
            rw [hfalse] at this
            simp at this
          have hexp : truncLoopF seq rpt (fuel + 1) i0 = truncLoopF seq rpt fuel (i0 + 1) := by
            rw [truncLoopF, if_pos hc, if_pos hdvd, hcast, hfalse]
          obtain ⟨out, hout, hres⟩ := ih (i0 + 1) (by omega) (by
            generalize ((seq.length : ℤ) - rpt).fdiv 2 = B at *
            omega)
          refine ⟨out, by rw [hexp]; exact hout, ?_⟩
          rcases hres with ⟨ho, hall⟩ | ⟨i, hi1, hi2, hi3, hi4, hi5⟩
          · refine Or.inl ⟨ho, fun i hi1 hi2 => ?_⟩
            rcases Nat.lt_or_ge i (i0 + 1) with hi | hi
            · have : i = i0 := by omega
              subst this
              exact hnp
            · exact hall i hi hi2
          · refine Or.inr ⟨i, by omega, hi2, hi3, fun i' h1 h2 => ?_, hi5⟩
            rcases Nat.lt_or_ge i' (i0 + 1) with hi' | hi'
            · have : i' = i0 := by omega
              subst this
              exact hnp
            · exact hi4 i' hi' h2
      · have hnp : ¬ tpasses seq rpt i0 := fun hp => hdvd hp.1
        have hexp : truncLoopF seq rpt (fuel + 1) i0 = truncLoopF seq rpt fuel (i0 + 1) := by
          rw [truncLoopF, if_pos hc, if_neg hdvd]
        obtain ⟨out, hout, hres⟩ := ih (i0 + 1) (by omega) (by
          generalize ((seq.length : ℤ) - rpt).fdiv 2 = B at *
          omega)
        refine ⟨out, by rw [hexp]; exact hout, ?_⟩
        rcases hres with ⟨ho, hall⟩ | ⟨i, hi1, hi2, hi3, hi4, hi5⟩
        · refine Or.inl ⟨ho, fun i hi1 hi2 => ?_⟩
          rcases Nat.lt_or_ge i (i0 + 1) with hi | hi
          · have : i = i0 := by omega
            subst this
            exact hnp
          · exact hall i hi hi2
        · refine Or.inr ⟨i, by omega, hi2, hi3, fun i' h1 h2 => ?_, hi5⟩
          rcases Nat.lt_or_ge i' (i0 + 1) with hi' | hi'
          · have : i' = i0 := by omega
            subst this
            exact hnp
          · exact hi4 i' hi' h2
    · have hstop : ¬ ((i0 : ℤ) ≤ ((seq.length : ℤ) - rpt).fdiv 2) := by omega
      rw [truncLoopF, if_neg hstop]
      exact ⟨seq, rfl, Or.inl ⟨rfl, fun i hi1 hi2 _ => by omega⟩⟩


theorem truncLoop_spec (seq : List ℤ) (rpt : ℤ) (h0 : 0 ≤ rpt)
    (hlt : rpt < (seq.length : ℤ)) (i0 : ℕ) (hi0 : 1 ≤ i0) :
    ∃ out, truncLoop seq rpt i0 = some out ∧
      ((out = seq ∧ ∀ i : ℕ, i0 ≤ i → (i : ℤ) ≤ ((seq.length : ℤ) - rpt).fdiv 2 →
          ¬ tpasses seq rpt i) ∨
       (∃ i : ℕ, i0 ≤ i ∧ (i : ℤ) ≤ ((seq.length : ℤ) - rpt).fdiv 2 ∧
          tpasses seq rpt i ∧
          (∀ i' : ℕ, i0 ≤ i' → i' < i → ¬ tpasses seq rpt i') ∧
          out = seq.take (rpt.toNat + i))) :=
  truncLoopF_spec seq rpt h0 hlt
    ((((seq.length : ℤ) - rpt).fdiv 2 + 1 - i0).toNat + 1) i0 hi0 (by omega)

theorem getD_take {l : List ℤ} {n j : ℕ} (h : j < n) :
    (l.take n).getD j 0 = l.getD j 0 := by
  rw [List.getD_eq_getElem?_getD, List.getElem?_take_of_lt h, ← List.getD_eq_getElem?_getD]

theorem getD_drop {l : List ℤ} {i j : ℕ} (h : i + j < l.length) :
    (l.drop i).getD j 0 = l.getD (i + j) 0 := by
  rw [getD_eq_getElem (l := l) h, getD_eq_getElem (by simp; omega)]
  exact List.getElem_drop l

theorem listPeriodVal (p : ℤ) (i : ℕ) (hi : 0 < i) :
    ∀ (m : ℕ) (l : List ℤ), l.length = m * i →
      (∀ j : ℕ, i ≤ j → j < l.length → l.getD j 0 = l.getD (j - i) 0) →
      digitsVal p l * (p ^ i - 1) = digitsVal p (l.take i) * (p ^ l.length - 1) := by
  intro m
  induction m with
  | zero =>
    intro l hlen hprop
    have : l = [] := List.length_eq_zero.mp (by omega)
    subst this
    simp [digitsVal]
  | succ m ih =>
    intro l hlen hprop
    by_cases hm : m = 0
    · subst hm
      have hleni : l.length = i := by omega
      have htakei : l.take i = l := List.take_of_length_le (by omega)
      rw [htakei, hleni]
    · have hmpos : 0 < m := Nat.pos_of_ne_zero hm
      have hlen' : l.length = m * i + i := by rw [hlen]; ring
      have hilen : i ≤ l.length := by omega
      have hdroplen : (l.drop i).length = m * i := by simp; omega
      have hdrop_eq : l.drop i = l.take (m * i) := by
        apply List.ext_getElem
        · rw [List.length_drop, List.length_take, Nat.min_eq_left (by omega)]
          omega
        · intro k hk1 hk2
          have hik : i + k < l.length := by simp at hk1; omega
          have e1 : (l.drop i)[k] = l[i + k] := List.getElem_drop l
          have hkmi : k < m * i := by
            rw [List.length_take, Nat.min_eq_left (by omega)] at hk2
            exact hk2
          have hkl : k < l.length := by omega
          have e2 : (l.take (m * i))[k] = l[k] := by
            have e2a := List.getElem?_take_of_lt (l := l) (n := m * i) (m := k) hkmi
            rw [List.getElem?_eq_getElem hk2, List.getElem?_eq_getElem hkl] at e2a
            exact Option.some.inj e2a
          rw [e1, e2]
          have hpk := hprop (i + k) (by omega) hik
          have e3 : i + k - i = k := by omega
          rw [e3] at hpk
          rw [getD_eq_getElem hik, getD_eq_getElem hkl] at hpk
          exact hpk
      have hprop2 : ∀ j : ℕ, i ≤ j → j < (l.drop i).length →
          (l.drop i).getD j 0 = (l.drop i).getD (j - i) 0 := by
        intro j hj1 hj2
        rw [hdroplen] at hj2
        rw [getD_drop (by omega), getD_drop (by omega)]
        have e4 : i + (j - i) = j := by omega
        rw [e4]
        have hpj := hprop (i + j) (by omega) (by omega)
        have e5 : i + j - i = j := by omega
        rw [e5] at hpj
        exact hpj
      have hIH := ih (l.drop i) hdroplen hprop2
      have htake2 : (l.drop i).take i = l.take i := by
        rw [hdrop_eq, List.take_take, Nat.min_eq_left (by nlinarith)]
      rw [htake2, hdroplen] at hIH
      have hsplit := digitsVal_split p l i hilen
      have hpow : p ^ i * p ^ (m * i) = p ^ l.length := by
        rw [← pow_add]
        congr 1
        omega
      linear_combination (p ^ i - 1) * hsplit + p ^ i * hIH +
        digitsVal p (l.take i) * hpow

theorem digitAt_trunc (shr shr2 : ℤ) {seq2 : List ℤ} {rpt : ℤ} {i : ℕ}
    (h0 : 0 ≤ rpt) (hlt : rpt < (seq2.length : ℤ)) (hi : 0 < i)
    (hp : tpasses seq2 rpt i) :
    ∀ u, digitAt ⟨seq2.take (rpt.toNat + i), rpt, shr2⟩ u = digitAt ⟨seq2, rpt, shr⟩ u := by
  have hdvd : (i : ℤ) ∣ ((seq2.length : ℤ) - rpt) := Int.dvd_of_emod_eq_zero hp.1
  obtain ⟨q, hq⟩ := hdvd
  have hqpos : 0 < q := by
    rcases le_or_lt q 0 with hcq | hcq
    · exfalso
      have h1 : (i : ℤ) * q ≤ (i : ℤ) * 0 := mul_le_mul_of_nonneg_left hcq (by positivity)
      omega
    · exact hcq
  have hiq : (i : ℤ) ≤ (i : ℤ) * q := by nlinarith
  have hile : rpt.toNat + i ≤ seq2.length := by omega
  have houtlen : (seq2.take (rpt.toNat + i)).length = rpt.toNat + i := by
    rw [List.length_take, Nat.min_eq_left hile]
  have hperout : period ⟨seq2.take (rpt.toNat + i), rpt, shr2⟩ = i := by
    show (seq2.take (rpt.toNat + i)).length - rpt.toNat = i
    rw [houtlen]
    omega
  have hs' : ∀ u, rpt.toNat ≤ u →
      digitAt ⟨seq2.take (rpt.toNat + i), rpt, shr2⟩ (u + i) =
        digitAt ⟨seq2.take (rpt.toNat + i), rpt, shr2⟩ u := by
    intro u hu
    have := digitAt_period (x := ⟨seq2.take (rpt.toNat + i), rpt, shr2⟩)
      h0 (show rpt.toNat < (seq2.take (rpt.toNat + i)).length by rw [houtlen]; omega) u hu
    rw [hperout] at this
    exact this
  have hstore : ∀ j, j < seq2.length →
      seq2.getD j 0 = digitAt ⟨seq2.take (rpt.toNat + i), rpt, shr2⟩ j := by
    intro j
    induction j using Nat.strong_induction_on with
    | _ j ihj =>
      intro hj
      rcases Nat.lt_or_ge j (rpt.toNat + i) with hc | hc
      · rw [digitAt_stored (show j < (seq2.take (rpt.toNat + i)).length by rw [houtlen]; omega),
          getD_take hc]
      · have e1 : seq2.getD j 0 = seq2.getD (j - i) 0 := hp.2 j hc hj
        have e2 := ihj (j - i) (by omega) (by omega)
        have e3 := hs' (j - i) (by omega)
        have e4 : j - i + i = j := by omega
        rw [e4] at e3
        rw [e1, e2, ← e3]
  have hqt : ((q.toNat : ℕ) : ℤ) = q := Int.toNat_of_nonneg (by omega)
  have hmul : ((q.toNat * i : ℕ) : ℤ) = (i : ℤ) * q := by
    push_cast
    rw [hqt]
    ring
  have hper : ∀ u, rpt.toNat ≤ u →
      digitAt ⟨seq2.take (rpt.toNat + i), rpt, shr2⟩ (u + period ⟨seq2, rpt, shr⟩) =
        digitAt ⟨seq2.take (rpt.toNat + i), rpt, shr2⟩ u := by
    intro u hu
    have hqq : period ⟨seq2, rpt, shr⟩ = q.toNat * i := by
      show seq2.length - rpt.toNat = q.toNat * i
      omega
    rw [hqq]
    exact stream_period_iter (s := digitAt ⟨seq2.take (rpt.toNat + i), rpt, shr2⟩)
      (r := rpt.toNat) (P := i) hs' q.toNat u hu
  intro u
  exact (digitAt_eq_of_stream (x := ⟨seq2, rpt, shr⟩) h0
    (show rpt.toNat < seq2.length by omega) hstore hper u).symm

theorem ratNum_trunc (p : ℤ) (shr : ℤ) {seq2 : List ℤ} {rpt : ℤ} {i : ℕ}
    (h0 : 0 ≤ rpt) (hlt : rpt < (seq2.length : ℤ)) (hi : 0 < i)
    (hp : tpasses seq2 rpt i) :
    ratNum ⟨seq2.take (rpt.toNat + i), rpt, shr⟩ p * (p ^ period ⟨seq2, rpt, shr⟩ - 1) =
      ratNum ⟨seq2, rpt, shr⟩ p * (p ^ i - 1) := by
  have hdvd : (i : ℤ) ∣ ((seq2.length : ℤ) - rpt) := Int.dvd_of_emod_eq_zero hp.1
  obtain ⟨q, hq⟩ := hdvd
  have hqpos : 0 < q := by
    rcases le_or_lt q 0 with hcq | hcq
    · exfalso
      have h1 : (i : ℤ) * q ≤ (i : ℤ) * 0 := mul_le_mul_of_nonneg_left hcq (by positivity)
      omega
    · exact hcq
  have hiq : (i : ℤ) ≤ (i : ℤ) * q := by nlinarith
  have hile : rpt.toNat + i ≤ seq2.length := by omega
  have houtlen : (seq2.take (rpt.toNat + i)).length = rpt.toNat + i := by
    rw [List.length_take, Nat.min_eq_left hile]
  have hperout : period ⟨seq2.take (rpt.toNat + i), rpt, shr⟩ = i := by
    show (seq2.take (rpt.toNat + i)).length - rpt.toNat = i
    rw [houtlen]
    omega
  have hper2 : period ⟨seq2, rpt, shr⟩ = seq2.length - rpt.toNat := rfl
  rw [ratNum_alt _ p (show rpt.toNat ≤ (seq2.take (rpt.toNat + i)).length by
      rw [houtlen]; omega),
    ratNum_alt _ p (show rpt.toNat ≤ seq2.length by omega), hperout, hper2]
  simp only
  have htakeA : (seq2.take (rpt.toNat + i)).take rpt.toNat = seq2.take rpt.toNat := by
    rw [List.take_take, Nat.min_eq_left (by omega)]
  rw [htakeA]
  have hdropout : (seq2.take (rpt.toNat + i)).drop rpt.toNat =
      (seq2.drop rpt.toNat).take i := by
    rw [List.take_drop]
  have hsplitout := digitsVal_split p (seq2.take (rpt.toNat + i)) rpt.toNat
    (by rw [houtlen]; omega)
  rw [htakeA, hdropout] at hsplitout
  have hsplit := digitsVal_split p seq2 rpt.toNat (by omega)
  have hqt : ((q.toNat : ℕ) : ℤ) = q := Int.toNat_of_nonneg (by omega)
  have hmul : ((q.toNat * i : ℕ) : ℤ) = (i : ℤ) * q := by
    push_cast
    rw [hqt]
    ring
  have htaillen : (seq2.drop rpt.toNat).length = q.toNat * i := by
    rw [List.length_drop]
    omega
  have htailprop : ∀ j : ℕ, i ≤ j → j < (seq2.drop rpt.toNat).length →
      (seq2.drop rpt.toNat).getD j 0 = (seq2.drop rpt.toNat).getD (j - i) 0 := by
    intro j hj1 hj2
    rw [List.length_drop] at hj2
    have hjlen : rpt.toNat + j < seq2.length := by omega
    rw [getD_drop (by omega), getD_drop (by omega)]
    have e4 : rpt.toNat + (j - i) = rpt.toNat + j - i := by omega
    rw [e4]
    exact hp.2 (rpt.toNat + j) (by omega) hjlen
  have hlpv := listPeriodVal p i hi q.toNat (seq2.drop rpt.toNat) htaillen htailprop
  rw [htaillen] at hlpv
  have hpows : p ^ (q.toNat * i) = p ^ (seq2.length - rpt.toNat) := by
    congr 1
    omega
  rw [hpows] at hlpv
  linear_combination (1 - p ^ (seq2.length - rpt.toNat)) * hsplitout +
    (p ^ i - 1) * hsplit + p ^ rpt.toNat * hlpv

/-! ### `simplify_padic` on expansions with no leading fractional zeroes -/

theorem pyDropFrom_zero (seq : List ℤ) : pyDropFrom seq 0 = seq := by
  unfold pyDropFrom
  simp


theorem stripCount_zero {seq : List ℤ} {shr : ℤ} (hne : seq ≠ []) (hshr : 0 ≤ shr)
    (hfirst : 0 < shr → seq.getD 0 0 ≠ 0) : stripCount seq shr = 0 := by
  unfold stripCount
  rcases eq_or_lt_of_le hshr with h | h
  · rw [← h, pySliceTo_nonneg le_rfl]
    simp [List.findIdx?]
  · have h0 := hfirst h
    rcases seq with _ | ⟨a, tl⟩
    · exact absurd rfl hne
    · rw [pySliceTo_nonneg hshr]
      have he : shr.toNat = (shr.toNat - 1) + 1 := by omega
      rw [he, List.take_succ_cons, List.findIdx?_cons]
      have ha : (a != 0) = true := by
        simp only [List.getD_cons_zero] at h0
        simpa using h0
      rw [ha]
      simp

theorem simplify_padic_char (p : ℤ) {x : PadicExp}
    (hne : x.seq ≠ []) (h0 : 0 ≤ x.rpt) (hlt : x.rpt < (x.seq.length : ℤ))
    (hshr : 0 ≤ x.shr) (hfirst : 0 < x.shr → x.seq.getD 0 0 ≠ 0) :
    ∃ y : PadicExp, simplify_padic x = some y ∧
      0 ≤ y.rpt ∧ y.rpt < (y.seq.length : ℤ) ∧ y.shr = x.shr ∧
      ratNum y p * ratDen x p = ratNum x p * ratDen y p ∧
      (∀ u, digitAt y u = digitAt x u) ∧
      ((∃ N : ℕ, ∀ u : ℕ, N ≤ u → digitAt x u = 0) → period y = 1) := by
  have ht : stripCount x.seq x.shr = 0 := stripCount_zero hne hshr hfirst
  have hlen0 : x.seq.length ≠ 0 := by
    intro hc
    exact hne (List.length_eq_zero.mp hc)
  obtain ⟨seq2, rpt2, hm, c0, c1, c2, c3, c4, c5⟩ :=
    mergeLoop_spec p x.seq x.rpt h0 hlt
  obtain ⟨out, htr, hres⟩ := truncLoop_spec seq2 rpt2 c0 c2 1 le_rfl
  have hrun : simplify_padic x = some ⟨out, rpt2, x.shr⟩ := by
    unfold simplify_padic
    rw [ht, if_neg (by push_cast; omega), pyDropFrom_zero, sub_zero, sub_zero, hm]
    show (match truncLoop seq2 rpt2 1 with
      | none => none
      | some seq3 => some (⟨seq3, rpt2, x.shr⟩ : PadicExp)) = _
    rw [htr]
  have hc4 := c4 x.shr x.shr
  have hc5 := fun u => c5 x.shr x.shr u
  have hperM : period ⟨seq2, rpt2, x.shr⟩ = period x := by
    show seq2.length - rpt2.toNat = x.seq.length - x.rpt.toNat
    omega
  have hxeta : (⟨x.seq, x.rpt, x.shr⟩ : PadicExp) = x := rfl
  have hrN2 : rpt2.toNat < seq2.length := by omega
  have hperpos : 0 < period ⟨seq2, rpt2, x.shr⟩ := by
    show 0 < seq2.length - rpt2.toNat
    omega
  have hzero2 : (∃ N : ℕ, ∀ u : ℕ, N ≤ u → digitAt x u = 0) →
      ∀ j : ℕ, rpt2.toNat ≤ j → digitAt ⟨seq2, rpt2, x.shr⟩ j = 0 := by
    rintro ⟨N, hN⟩ j hj
    have hper := digitAt_period (x := ⟨seq2, rpt2, x.shr⟩) c0 hrN2
    have hiter := stream_period_iter (s := fun u => digitAt ⟨seq2, rpt2, x.shr⟩ u)
      (r := rpt2.toNat) (P := period ⟨seq2, rpt2, x.shr⟩) hper N j hj
    have hNle : N ≤ j + N * period ⟨seq2, rpt2, x.shr⟩ := by
      have := Nat.le_mul_of_pos_right N hperpos
      omega
    have hx0 := hN (j + N * period ⟨seq2, rpt2, x.shr⟩) hNle
    have hcx := hc5 (j + N * period ⟨seq2, rpt2, x.shr⟩)
    have hiter' : digitAt ⟨seq2, rpt2, x.shr⟩ (j + N * period ⟨seq2, rpt2, x.shr⟩) =
        digitAt ⟨seq2, rpt2, x.shr⟩ j := hiter
    rw [← hiter']
    calc digitAt ⟨seq2, rpt2, x.shr⟩ (j + N * period ⟨seq2, rpt2, x.shr⟩)
        = digitAt x (j + N * period ⟨seq2, rpt2, x.shr⟩) := by rw [← hxeta]; exact hcx
      _ = 0 := hx0
  have htp1 : (∃ N : ℕ, ∀ u : ℕ, N ≤ u → digitAt x u = 0) → tpasses seq2 rpt2 1 := by
    intro hz
    refine ⟨Int.emod_one _, ?_⟩
    intro j hj1 hj2
    have e1 : seq2.getD j 0 = 0 := by
      rw [← digitAt_stored (x := ⟨seq2, rpt2, x.shr⟩) (t := j) hj2]
      exact hzero2 hz j (by omega)
    have e2 : seq2.getD (j - 1) 0 = 0 := by
      rw [← digitAt_stored (x := ⟨seq2, rpt2, x.shr⟩) (t := j - 1)
        (show j - 1 < seq2.length by omega)]
      exact hzero2 hz (j - 1) (by omega)
    rw [e1, e2]
  rcases hres with ⟨hout, hall⟩ | ⟨i, hi1, hi2, hip, hi4, hout⟩
  · subst hout
    refine ⟨⟨out, rpt2, x.shr⟩, hrun, c0, c2, rfl, ?_, ?_, ?_⟩
    · simp only [ratDen]
      rw [hperM]
      rw [show ratNum ⟨out, rpt2, x.shr⟩ p = ratNum x p from by rw [← hxeta]; exact hc4]
    · intro u
      rw [show digitAt ⟨out, rpt2, x.shr⟩ u = digitAt x u from by rw [← hxeta]; exact hc5 u]
    · intro hz
      show out.length - rpt2.toNat = 1
      by_contra hne1
      have hper2 : 2 ≤ out.length - rpt2.toNat := by
        have : 0 < out.length - rpt2.toNat := hperpos
        omega
      have hbound : (1 : ℤ) ≤ ((out.length : ℤ) - rpt2).fdiv 2 := by
        rw [Int.fdiv_eq_ediv _ (by norm_num)]
        have h22 : (2 : ℤ) / 2 ≤ ((out.length : ℤ) - rpt2) / 2 :=
          Int.ediv_le_ediv (by norm_num) (by omega)
        norm_num at h22
        exact h22
      exact hall 1 le_rfl hbound (htp1 hz)
  · subst hout
    have hitr := ratNum_trunc p x.shr c0 c2 (by omega) hip
    have hdtr := digitAt_trunc x.shr x.shr c0 c2 (by omega) hip
    have houtlen : (seq2.take (rpt2.toNat + i)).length = rpt2.toNat + i := by
      rw [List.length_take, Nat.min_eq_left ?_]
      have hdvd : (i : ℤ) ∣ ((seq2.length : ℤ) - rpt2) := Int.dvd_of_emod_eq_zero hip.1
      obtain ⟨q, hq⟩ := hdvd
      have hqpos : 0 < q := by
        rcases le_or_lt q 0 with hcq | hcq
        · exfalso
          have hh : (i : ℤ) * q ≤ (i : ℤ) * 0 := mul_le_mul_of_nonneg_left hcq (by positivity)
          omega
        · exact hcq
      have hiq : (i : ℤ) ≤ (i : ℤ) * q := by nlinarith
      omega
    refine ⟨⟨seq2.take (rpt2.toNat + i), rpt2, x.shr⟩, hrun, c0,
      by rw [houtlen]; push_cast; omega, rfl, ?_, ?_, ?_⟩
    · have hperout : period ⟨seq2.take (rpt2.toNat + i), rpt2, x.shr⟩ = i := by
        show (seq2.take (rpt2.toNat + i)).length - rpt2.toNat = i
        rw [houtlen]
        omega
      simp only [ratDen]
      rw [hperout]
      rw [hperM] at hitr
      rw [show ratNum ⟨seq2, rpt2, x.shr⟩ p = ratNum x p from by rw [← hxeta]; exact hc4] at hitr
      linear_combination p ^ x.shr.toNat * hitr
    · intro u
      rw [hdtr u]
      rw [show digitAt ⟨seq2, rpt2, x.shr⟩ u = digitAt x u from by rw [← hxeta]; exact hc5 u]
    · intro hz
      show (seq2.take (rpt2.toNat + i)).length - rpt2.toNat = 1
      rw [houtlen]
      have hi1' : i = 1 := by
        by_contra hne1
        exact hi4 1 le_rfl (by omega) (htp1 hz)
      omega

/-! ### The combination loop of `padic_digitwise_op` -/

theorem cycIdx_lt {len rpt : ℕ} (h : rpt < len) (s : ℕ) : cycIdx len rpt s < len := by
  unfold cycIdx
  rcases Nat.lt_or_ge s len with hc | hc
  · rw [if_pos hc]
    exact hc
  · rw [if_neg (by omega)]
    have := Nat.mod_lt (s - rpt) (y := len - rpt) (by omega)
    omega

theorem cycIdx_ge {len rpt : ℕ} (h : rpt < len) {s : ℕ} (hs : rpt ≤ s) :
    rpt ≤ cycIdx len rpt s := by
  unfold cycIdx
  rcases Nat.lt_or_ge s len with hc | hc
  · rw [if_pos hc]
    exact hs
  · rw [if_neg (by omega)]
    omega

theorem cycIdx_succ {len rpt : ℕ} (h : rpt < len) (s : ℕ) :
    cycIdx len rpt (s + 1) =
      if cycIdx len rpt s + 1 = len then rpt else cycIdx len rpt s + 1 := by
  rcases Nat.lt_or_ge (s + 1) len with hc | hc
  · have e1 : cycIdx len rpt (s + 1) = s + 1 := by
      unfold cycIdx
      rw [if_pos hc]
    have e2 : cycIdx len rpt s = s := by
      unfold cycIdx
      rw [if_pos (by omega)]
    rw [e1, e2, if_neg (by omega)]
  · rcases Nat.lt_or_ge s len with hc2 | hc2
    · have e1 : cycIdx len rpt (s + 1) = rpt := by
        unfold cycIdx
        rw [if_neg (by omega)]
        have e0 : s + 1 - rpt = len - rpt := by omega
        rw [e0, Nat.mod_self]
        omega
      have e2 : cycIdx len rpt s = s := by
        unfold cycIdx
        rw [if_pos hc2]
      rw [e1, e2, if_pos (by omega)]
    · have hPpos : 0 < len - rpt := by omega
      have hdm := Nat.div_add_mod (s - rpt) (len - rpt)
      have hrlt : (s - rpt) % (len - rpt) < len - rpt := Nat.mod_lt _ hPpos
      have e2 : cycIdx len rpt s = rpt + (s - rpt) % (len - rpt) := by
        unfold cycIdx
        rw [if_neg (by omega)]
      have e1x : s + 1 - rpt = (s - rpt) + 1 := by omega
      have e1e : (s - rpt) + 1 =
          (len - rpt) * ((s - rpt) / (len - rpt)) + ((s - rpt) % (len - rpt) + 1) := by
        omega
      rcases Nat.lt_or_ge ((s - rpt) % (len - rpt) + 1) (len - rpt) with hr | hr
      · have e1 : cycIdx len rpt (s + 1) = rpt + ((s - rpt) % (len - rpt) + 1) := by
          unfold cycIdx
          rw [if_neg (by omega), e1x, e1e, Nat.mul_add_mod, Nat.mod_eq_of_lt hr]
        rw [e1, e2, if_neg (by omega)]
        omega
      · have hre : (s - rpt) % (len - rpt) + 1 = len - rpt := by omega
        have e1 : cycIdx len rpt (s + 1) = rpt := by
          unfold cycIdx
          rw [if_neg (by omega), e1x, e1e, Nat.mul_add_mod, hre, Nat.mod_self]
          omega
        rw [e1, e2, if_pos (by omega)]

theorem combIdx_zero {pad len rpt : ℕ} (hlen : 0 < len) :
    combIdx pad len rpt 0 = -(pad : ℤ) := by
  unfold combIdx cycIdx
  rcases Nat.eq_zero_or_pos pad with h | h
  · subst h
    rw [if_neg (by omega), if_pos (by omega)]
    simp
  · rw [if_pos h]
    omega

theorem combIdx_succ {pad len rpt : ℕ} (h : rpt < len) (t : ℕ) :
    combIdx pad len rpt (t + 1) =
      if combIdx pad len rpt t + 1 = (len : ℤ) then (rpt : ℤ)
      else combIdx pad len rpt t + 1 := by
  rcases Nat.lt_or_ge (t + 1) pad with hc | hc
  · have e1 : combIdx pad len rpt (t + 1) = ((t + 1 : ℕ) : ℤ) - pad := by
      unfold combIdx
      rw [if_pos hc]
    have e2 : combIdx pad len rpt t = (t : ℤ) - pad := by
      unfold combIdx
      rw [if_pos (by omega)]
    rw [e1, e2, if_neg (by push_cast; omega)]
    push_cast
    ring
  · rcases Nat.lt_or_ge t pad with hc2 | hc2
    · have e0 : t + 1 - pad = 0 := by omega
      have e1 : combIdx pad len rpt (t + 1) = ((cycIdx len rpt 0 : ℕ) : ℤ) := by
        unfold combIdx
        rw [if_neg (by omega), e0]
      have e2 : combIdx pad len rpt t = (t : ℤ) - pad := by
        unfold combIdx
        rw [if_pos hc2]
      have e3 : cycIdx len rpt 0 = 0 := by
        unfold cycIdx
        rw [if_pos (by omega)]
      rw [e1, e2, e3, if_neg (by push_cast; omega)]
      push_cast
      omega
    · have e0 : t + 1 - pad = (t - pad) + 1 := by omega
      have e1 : combIdx pad len rpt (t + 1) =
          ((cycIdx len rpt ((t - pad) + 1) : ℕ) : ℤ) := by
        unfold combIdx
        rw [if_neg (by omega), e0]
      have e2 : combIdx pad len rpt t = ((cycIdx len rpt (t - pad) : ℕ) : ℤ) := by
        unfold combIdx
        rw [if_neg (by omega)]
      rw [e1, e2, cycIdx_succ h]
      by_cases hq : cycIdx len rpt (t - pad) + 1 = len
      · rw [if_pos hq, if_pos (by push_cast; omega)]
      · rw [if_neg hq, if_neg (by push_cast; omega)]
        push_cast
        ring

theorem combIdx_lt {pad len rpt : ℕ} (h : rpt < len) (t : ℕ) :
    combIdx pad len rpt t < (len : ℤ) := by
  unfold combIdx
  rcases Nat.lt_or_ge t pad with hc | hc
  · rw [if_pos hc]
    omega
  · rw [if_neg (by omega)]
    exact_mod_cast cycIdx_lt h (t - pad)

theorem combIdx_nonneg {pad len rpt : ℕ} {t : ℕ} (ht : pad ≤ t) :
    0 ≤ combIdx pad len rpt t := by
  unfold combIdx
  rw [if_neg (by omega)]
  positivity

theorem combIdx_ge_rpt {pad len rpt : ℕ} (h : rpt < len) {t : ℕ} (ht : pad + rpt ≤ t) :
    (rpt : ℤ) ≤ combIdx pad len rpt t := by
  unfold combIdx
  rw [if_neg (by omega)]
  exact_mod_cast cycIdx_ge h (by omega)

theorem digitAt_cycIdx (x : PadicExp) (s : ℕ) :
    digitAt x s = x.seq.getD (cycIdx x.seq.length x.rpt.toNat s) 0 := by
  unfold digitAt cycIdx period
  by_cases hc : s < x.seq.length
  · rw [if_pos hc, if_pos hc]
  · rw [if_neg hc, if_neg hc]

theorem combOrbit {lenA rptA lenB rptB padA padB : ℕ} (hA : rptA < lenA)
    (hB : rptB < lenB) :
    ∀ t : ℕ,
      (combStep (lenA : ℤ) (rptA : ℤ) (lenB : ℤ) (rptB : ℤ))^[t]
          (-(padA : ℤ), -(padB : ℤ)) =
        (combIdx padA lenA rptA t, combIdx padB lenB rptB t) := by
  intro t
  induction t with
  | zero =>
    simp only [Function.iterate_zero, id_eq]
    rw [combIdx_zero (by omega), combIdx_zero (by omega)]
  | succ t ih =>
    rw [Function.iterate_succ_apply', ih]
    unfold combStep
    dsimp only
    rw [combIdx_succ hA, combIdx_succ hB]

theorem combRead (x : PadicExp) (pad : ℕ) (hlt : x.rpt.toNat < x.seq.length) (t : ℕ) :
    (if 0 ≤ combIdx pad x.seq.length x.rpt.toNat t
      then pyGet x.seq (combIdx pad x.seq.length x.rpt.toNat t) else some 0) =
      some (padStream x pad t) := by
  unfold padStream
  rcases Nat.lt_or_ge t pad with hc | hc
  · have hneg : combIdx pad x.seq.length x.rpt.toNat t < 0 := by
      unfold combIdx
      rw [if_pos hc]
      omega
    rw [if_neg (by omega), if_pos hc]
  · have h0 : 0 ≤ combIdx pad x.seq.length x.rpt.toNat t := combIdx_nonneg hc
    rw [if_pos h0, if_neg (by omega)]
    have hci : combIdx pad x.seq.length x.rpt.toNat t =
        ((cycIdx x.seq.length x.rpt.toNat (t - pad) : ℕ) : ℤ) := by
      unfold combIdx
      rw [if_neg (by omega)]
    rw [hci, pyGet_in_range (by positivity) (by exact_mod_cast cycIdx_lt hlt _)]
    rw [Int.toNat_natCast, digitAt_cycIdx]

theorem combEmit_eval (op : ℤ → ℤ → ℤ) (a b : PadicExp) (padA padB : ℕ)
    (hA : a.rpt.toNat < a.seq.length) (hB : b.rpt.toNat < b.seq.length) (t : ℕ) :
    combEmit op a.seq b.seq
        (combIdx padA a.seq.length a.rpt.toNat t,
         combIdx padB b.seq.length b.rpt.toNat t) =
      some (op (padStream a padA t) (padStream b padB t)) := by
  unfold combEmit
  dsimp only
  rw [combRead a padA hA t, combRead b padB hB t]

theorem comb_char (op : ℤ → ℤ → ℤ) (a b : PadicExp)
    (ha0 : 0 ≤ a.rpt) (halt : a.rpt < (a.seq.length : ℤ))
    (hb0 : 0 ≤ b.rpt) (hblt : b.rpt < (b.seq.length : ℤ)) :
    ∃ y : PadicExp, padic_digitwise_op op a b = some y ∧
      y.shr = max a.shr b.shr ∧ 0 ≤ y.rpt ∧ y.rpt < (y.seq.length : ℤ) ∧
      y.seq.length ≤ (a.shr - b.shr).natAbs + a.seq.length + b.seq.length +
        period a * period b ∧
      (∀ u : ℕ, digitAt y u =
        op (padStream a (b.shr - a.shr).toNat u)
          (padStream b (a.shr - b.shr).toNat u)) := by
  set padA := (b.shr - a.shr).toNat with hpadA
  set padB := (a.shr - b.shr).toNat with hpadB
  have hA : a.rpt.toNat < a.seq.length := by omega
  have hB : b.rpt.toNat < b.seq.length := by omega
  have hac : ((a.rpt.toNat : ℕ) : ℤ) = a.rpt := by omega
  have hbc : ((b.rpt.toNat : ℕ) : ℤ) = b.rpt := by omega
  have hstep2 : combStep (a.seq.length : ℤ) a.rpt (b.seq.length : ℤ) b.rpt =
      combStep (a.seq.length : ℤ) ((a.rpt.toNat : ℕ) : ℤ) (b.seq.length : ℤ)
        ((b.rpt.toNat : ℕ) : ℤ) := by
    rw [hac, hbc]
  have horb : ∀ t : ℕ,
      (combStep (a.seq.length : ℤ) a.rpt (b.seq.length : ℤ) b.rpt)^[t]
          (-(padA : ℤ), -(padB : ℤ)) =
        (combIdx padA a.seq.length a.rpt.toNat t,
         combIdx padB b.seq.length b.rpt.toNat t) := by
    intro t
    rw [hstep2]
    exact combOrbit hA hB t
  set T0 := max (padA + a.rpt.toNat) (padB + b.rpt.toNat) with hT0
  set N := period a * period b with hNdef
  have hmaps : ∀ k ∈ Finset.range (N + 1),
      (combIdx padA a.seq.length a.rpt.toNat (T0 + k),
       combIdx padB b.seq.length b.rpt.toNat (T0 + k)) ∈
        (Finset.Ico a.rpt (a.seq.length : ℤ)) ×ˢ
          (Finset.Ico b.rpt (b.seq.length : ℤ)) := by
    intro k _
    rw [Finset.mem_product, Finset.mem_Ico, Finset.mem_Ico]
    refine ⟨⟨?_, combIdx_lt hA _⟩, ?_, combIdx_lt hB _⟩
    · rw [← hac]
      exact combIdx_ge_rpt hA (by omega)
    · rw [← hbc]
      exact combIdx_ge_rpt hB (by omega)
  have hcard : ((Finset.Ico a.rpt (a.seq.length : ℤ)) ×ˢ
      (Finset.Ico b.rpt (b.seq.length : ℤ))).card < (Finset.range (N + 1)).card := by
    rw [Finset.card_product, Int.card_Ico, Int.card_Ico, Finset.card_range]
    have e1 : ((a.seq.length : ℤ) - a.rpt).toNat = period a := by
      unfold period
      omega
    have e2 : ((b.seq.length : ℤ) - b.rpt).toNat = period b := by
      unfold period
      omega
    rw [e1, e2]
    omega
  obtain ⟨k1, hk1, k2, hk2, hkne, hkeq⟩ :=
    Finset.exists_ne_map_eq_of_card_lt_of_maps_to hcard hmaps
  rw [Finset.mem_range] at hk1 hk2
  have hrep : ∃ t1 t2 : ℕ, t1 < t2 ∧ t2 ≤ T0 + N ∧
      (combStep (a.seq.length : ℤ) a.rpt (b.seq.length : ℤ) b.rpt)^[t1]
          (-(padA : ℤ), -(padB : ℤ)) =
        (combStep (a.seq.length : ℤ) a.rpt (b.seq.length : ℤ) b.rpt)^[t2]
          (-(padA : ℤ), -(padB : ℤ)) := by
    rcases lt_or_gt_of_ne hkne with h | h
    · exact ⟨T0 + k1, T0 + k2, by omega, by omega,
        by rw [horb, horb]; exact hkeq⟩
    · exact ⟨T0 + k2, T0 + k1, by omega, by omega,
        by rw [horb, horb]; exact hkeq.symm⟩
  obtain ⟨t1, t2, h12, ht2, hteq⟩ := hrep
  have hemitS : ∀ j : ℕ, j < t2 →
      ((combEmit op a.seq b.seq)
        ((combStep (a.seq.length : ℤ) a.rpt (b.seq.length : ℤ) b.rpt)^[j]
          (-(padA : ℤ), -(padB : ℤ)))).isSome := by
    intro j _
    rw [horb j, combEmit_eval op a b padA padB hA hB j]
    rfl
  have hfuel : t2 + 1 ≤ combFuel a b := by
    unfold combFuel
    have hNle : N ≤ a.seq.length * b.seq.length := by
      have h1 : period a ≤ a.seq.length := by
        unfold period
        omega
      have h2 : period b ≤ b.seq.length := by
        unfold period
        omega
      rw [hNdef]
      exact Nat.mul_le_mul h1 h2
    have hpads : padA + padB = (a.shr - b.shr).natAbs := by omega
    omega
  have hsome := genLoop_isSome h12 hteq hemitS hfuel
  obtain ⟨⟨seq, rptOut⟩, hres⟩ := Option.isSome_iff_exists.mp hsome
  have hs0 : (min 0 (a.shr - b.shr), min 0 (b.shr - a.shr)) =
      ((-(padA : ℤ)), -(padB : ℤ)) := by
    rw [Prod.mk.injEq]
    constructor <;> omega
  have heq : padic_digitwise_op op a b = some ⟨seq, (rptOut : ℤ), max a.shr b.shr⟩ := by
    unfold padic_digitwise_op
    rw [hs0, hres]
  obtain ⟨hrlt, horbEq, hemitEq, hinj⟩ := genLoop_spec hres
  have hlenle : seq.length ≤ t2 := by
    by_contra hgt
    exact hinj t1 t2 h12 (by omega) hteq
  have hstore : ∀ j, j < seq.length →
      seq.getD j 0 = op (padStream a padA j) (padStream b padB j) := by
    intro j hj
    have h1 := hemitEq j hj
    rw [horb j, combEmit_eval op a b padA padB hA hB j] at h1
    exact (Option.some.injEq _ _ ▸ h1).symm
  have hper : ∀ u, rptOut ≤ u →
      op (padStream a padA (u + (seq.length - rptOut)))
          (padStream b padB (u + (seq.length - rptOut))) =
        op (padStream a padA u) (padStream b padB u) := by
    intro u hu
    have hstates : (combStep (a.seq.length : ℤ) a.rpt (b.seq.length : ℤ) b.rpt)^[u +
        (seq.length - rptOut)] (-(padA : ℤ), -(padB : ℤ)) =
        (combStep (a.seq.length : ℤ) a.rpt (b.seq.length : ℤ) b.rpt)^[u]
          (-(padA : ℤ), -(padB : ℤ)) := by
      have e1 : u + (seq.length - rptOut) = (u - rptOut) + seq.length := by omega
      have e2 : (u - rptOut) + rptOut = u := by omega
      rw [e1, Function.iterate_add_apply, horbEq, ← Function.iterate_add_apply, e2]
    have h1 := combEmit_eval op a b padA padB hA hB (u + (seq.length - rptOut))
    have h2 := combEmit_eval op a b padA padB hA hB u
    rw [← horb] at h1 h2
    rw [hstates, h2] at h1
    exact Option.some.injEq _ _ ▸ h1.symm
  refine ⟨⟨seq, (rptOut : ℤ), max a.shr b.shr⟩, heq, rfl, by positivity, ?_, ?_, ?_⟩
  · show ((rptOut : ℕ) : ℤ) < ((seq.length : ℕ) : ℤ)
    exact_mod_cast hrlt
  · show seq.length ≤ _
    omega
  · intro u
    refine digitAt_eq_of_stream (x := ⟨seq, (rptOut : ℤ), max a.shr b.shr⟩)
      (s := fun v => op (padStream a padA v) (padStream b padB v))
      (by positivity) ?_ hstore ?_ u
    · show ((rptOut : ℤ)).toNat < seq.length
      rw [Int.toNat_natCast]
      exact hrlt
    · intro v hv
      have hv' : rptOut ≤ v := by simpa using hv
      have e : period ⟨seq, (rptOut : ℤ), max a.shr b.shr⟩ = seq.length - rptOut := by
        show seq.length - ((rptOut : ℤ)).toNat = seq.length - rptOut
        rw [Int.toNat_natCast]
      rw [e]
      exact hper v hv'

/-! ### Conversion of nonnegative integers in base 2: binary digit streams -/

theorem padicStep_two_one (n : ℤ) : padicStep 2 1 1 n = n / 2 := by
  unfold padicStep
  have h1 : n - 1 * ((n * 1) % 2) = 2 * (n / 2) := by
    have := Int.ediv_add_emod n 2
    omega
  rw [h1, Int.mul_fdiv_cancel_left _ (by norm_num)]

theorem conv_orbit_two (a : ℕ) : ∀ t : ℕ,
    (padicStep 2 1 1)^[t] (a : ℤ) = ((a / 2 ^ t : ℕ) : ℤ) := by
  intro t
  induction t with
  | zero => simp
  | succ t ih =>
    rw [Function.iterate_succ_apply', ih, padicStep_two_one]
    have hstep : (a / 2 ^ t : ℕ) / 2 = a / 2 ^ (t + 1) := by
      rw [Nat.div_div_eq_div_mul, pow_succ]
    have hcast : ((a / 2 ^ t : ℕ) : ℤ) / 2 = (((a / 2 ^ t) / 2 : ℕ) : ℤ) := by
      push_cast
      ring
    rw [hcast, hstep]

theorem modInv_one_two : modInv 1 2 = 1 := by decide

theorem stripP_one (n : ℤ) : stripP 2 n 1 0 = (n, 1, 0) := by
  rw [stripP, stripPF, if_neg (by decide)]

theorem conv_int_stream (a : ℕ) :
    ∃ x : PadicExp, padic_from_rational ((a : ℤ), 1) 2 = some x ∧
      0 ≤ x.rpt ∧ x.rpt < (x.seq.length : ℤ) ∧ x.shr = 0 ∧
      ∀ t : ℕ, digitAt x t = ((a / 2 ^ t % 2 : ℕ) : ℤ) := by
  have hstrip : stripP 2 ((a : ℤ)) 1 0 = ((a : ℤ), 1, 0) := stripP_one _
  have hgcd : Int.gcd 1 2 = 1 := by decide
  have hdi : ((1 : ℤ) * modInv 1 2) % 2 = 1 % 2 := by decide
  have hsome := @padic_genLoop_isSome 2 1 (modInv 1 2) ((a : ℤ))
    (by norm_num) (by norm_num) hdi
  obtain ⟨⟨seq, rptOut⟩, hres⟩ := Option.isSome_iff_exists.mp hsome
  have heq : padic_from_rational ((a : ℤ), 1) 2 = some ⟨seq, (rptOut : ℤ), 0⟩ := by
    simp only [padic_from_rational, hstrip]
    rw [if_pos hgcd, hres]
  obtain ⟨hrlt, horbEq, hemitEq, hinj⟩ := genLoop_spec hres
  rw [modInv_one_two] at horbEq hemitEq
  have horb2 := conv_orbit_two a
  refine ⟨⟨seq, (rptOut : ℤ), 0⟩, heq, by positivity, ?_, rfl, ?_⟩
  · show ((rptOut : ℕ) : ℤ) < ((seq.length : ℕ) : ℤ)
    exact_mod_cast hrlt
  · intro t
    refine digitAt_eq_of_stream (x := ⟨seq, (rptOut : ℤ), 0⟩)
      (s := fun v => ((a / 2 ^ v % 2 : ℕ) : ℤ)) (by positivity) ?_ ?_ ?_ t
    · show ((rptOut : ℤ)).toNat < seq.length
      rw [Int.toNat_natCast]
      exact hrlt
    · intro j hj
      have h1 := hemitEq j hj
      rw [horb2 j] at h1
      unfold padicEmit at h1
      have h2 : seq.getD j 0 = (((a / 2 ^ j : ℕ) : ℤ) * 1) % 2 :=
        (Option.some.injEq _ _ ▸ h1).symm
      rw [h2, mul_one]
      push_cast
      ring
    · intro u hu
      have hu' : rptOut ≤ u := by simpa using hu
      show ((a / 2 ^ (u + period ⟨seq, (rptOut : ℤ), 0⟩) % 2 : ℕ) : ℤ) =
        ((a / 2 ^ u % 2 : ℕ) : ℤ)
      have hperval : period ⟨seq, (rptOut : ℤ), 0⟩ = seq.length - rptOut := by
        show seq.length - ((rptOut : ℤ)).toNat = seq.length - rptOut
        rw [Int.toNat_natCast]
      have hkey : (a / 2 ^ seq.length : ℕ) = a / 2 ^ rptOut := by
        have h1 := horbEq
        rw [horb2, horb2] at h1
        exact_mod_cast h1
      have hsplit : ∀ v w : ℕ, a / 2 ^ (v + w) = a / 2 ^ v / 2 ^ w := by
        intro v w
        rw [pow_add, ← Nat.div_div_eq_div_mul]
      have e1 : a / 2 ^ (u + (seq.length - rptOut)) = a / 2 ^ u := by
        have e2 : u + (seq.length - rptOut) =
            (rptOut + (seq.length - rptOut)) + (u - rptOut) := by omega
        have e3 : rptOut + (seq.length - rptOut) = seq.length := by omega
        rw [e2, hsplit, e3, hkey, ← hsplit]
        have e4 : rptOut + (u - rptOut) = u := by omega
        rw [e4]
      rw [hperval, e1]

/-! ### Bitwise facts about natural numbers -/

theorem bit_xor_bit (a b u : ℕ) :
    ((a ^^^ b) / 2 ^ u % 2 : ℕ) = (a / 2 ^ u % 2 + b / 2 ^ u % 2) % 2 := by
  have h1 := Nat.testBit_xor a b u
  simp only [Nat.testBit_to_div_mod] at h1
  have hx := Nat.mod_two_eq_zero_or_one ((a ^^^ b) / 2 ^ u)
  have ha := Nat.mod_two_eq_zero_or_one (a / 2 ^ u)
  have hb := Nat.mod_two_eq_zero_or_one (b / 2 ^ u)
  rcases ha with ha | ha <;> rcases hb with hb | hb <;>
    rw [ha, hb] <;> rw [ha, hb] at h1 <;> simp at h1 <;> omega

theorem nat_eq_zero_of_bits_zero {n : ℕ} (h : ∀ j, n / 2 ^ j % 2 = 0) : n = 0 := by
  by_contra hne
  have h1 : 2 ^ n.log2 ≤ n := Nat.log2_self_le hne
  have h2 : n < 2 ^ (n.log2 + 1) := Nat.lt_log2_self
  have h3 : n / 2 ^ n.log2 = 1 := by
    refine Nat.div_eq_of_lt_le (by omega) ?_
    rw [pow_succ] at h2
    omega
  have h4 := h n.log2
  omega

theorem digitsVal_two_eq_mod (m : ℕ) :
    ∀ (l : List ℤ) (base : ℕ),
      (∀ j, j < l.length → l.getD j 0 = ((m / 2 ^ (base + j) % 2 : ℕ) : ℤ)) →
      digitsVal 2 l = ((m / 2 ^ base % 2 ^ l.length : ℕ) : ℤ) := by
  intro l
  induction l with
  | nil =>
    intro base _
    simp [digitsVal]
  | cons x xs ih =>
    intro base hdig
    have hx : x = ((m / 2 ^ base % 2 : ℕ) : ℤ) := by
      have h0 := hdig 0 (by simp)
      simpa using h0
    have htail : digitsVal 2 xs = ((m / 2 ^ (base + 1) % 2 ^ xs.length : ℕ) : ℤ) := by
      refine ih (base + 1) ?_
      intro j hj
      have h1 := hdig (j + 1) (by simpa using Nat.succ_lt_succ hj)
      have e : base + (j + 1) = (base + 1) + j := by omega
      rw [e] at h1
      simpa using h1
    simp only [digitsVal, List.length_cons]
    rw [hx, htail]
    have e1 : m / 2 ^ (base + 1) = m / 2 ^ base / 2 := by
      rw [pow_succ, ← Nat.div_div_eq_div_mul]
    have e2 : m / 2 ^ base % 2 ^ (xs.length + 1) =
        m / 2 ^ base % 2 + 2 * (m / 2 ^ base / 2 % 2 ^ xs.length) := by
      rw [pow_succ']
      exact Nat.mod_mul
    rw [e1, e2]
    push_cast
    ring

/-! ### Greatest common divisor of stream periods -/

theorem toRational_of_bits (m : ℕ) {y : PadicExp} (h0 : 0 ≤ y.rpt)
    (hlt : y.rpt < (y.seq.length : ℤ)) (hshr : y.shr = 0) (hper : period y = 1)
    (hstream : ∀ t : ℕ, digitAt y t = ((m / 2 ^ t % 2 : ℕ) : ℤ)) :
    rational_from_padic y 2 = some ((m : ℤ), 1) := by
  have hspec := rational_from_padic_spec y 2 h0 (le_of_lt hlt) hshr.symm.le
  have hperlen : y.seq.length - y.rpt.toNat = 1 := hper
  have hrlen : y.rpt.toNat + 1 = y.seq.length := by omega
  have hden : ratDen y 2 = 1 := by
    unfold ratDen
    rw [hper, hshr]
    norm_num
  have htail0 : ∀ k : ℕ, digitAt y (y.rpt.toNat + k) = 0 := by
    intro k
    have hps := digitAt_period h0 (show y.rpt.toNat < y.seq.length by omega)
    have hiter := stream_period_iter (s := fun u => digitAt y u) (r := y.rpt.toNat)
      (P := period y) hps m (y.rpt.toNat + k) (by omega)
    have hiter' : digitAt y ((y.rpt.toNat + k) + m * period y) =
        digitAt y (y.rpt.toNat + k) := hiter
    rw [hper, mul_one] at hiter'
    rw [← hiter', hstream]
    have hdiv0 : m / 2 ^ (y.rpt.toNat + k + m) = 0 := by
      apply Nat.div_eq_of_lt
      calc m < 2 ^ m := Nat.lt_two_pow m
        _ ≤ 2 ^ (y.rpt.toNat + k + m) := Nat.pow_le_pow_right (by norm_num) (by omega)
    rw [hdiv0]
    simp
  have hbits : ∀ j : ℕ, m / 2 ^ y.rpt.toNat / 2 ^ j % 2 = 0 := by
    intro j
    have h1 := htail0 j
    rw [hstream] at h1
    have h2 : m / 2 ^ (y.rpt.toNat + j) % 2 = 0 := by exact_mod_cast h1
    rw [Nat.div_div_eq_div_mul, ← pow_add]
    exact h2
  have hq0 : m / 2 ^ y.rpt.toNat = 0 := nat_eq_zero_of_bits_zero hbits
  have hmlt : m < 2 ^ y.rpt.toNat := by
    rcases Nat.lt_or_ge m (2 ^ y.rpt.toNat) with h | h
    · exact h
    · exfalso
      have h1 : 1 ≤ m / 2 ^ y.rpt.toNat :=
        (Nat.le_div_iff_mul_le (by positivity)).mpr (by omega)
      omega
  have hstore : ∀ j, j < y.seq.length → y.seq.getD j 0 = ((m / 2 ^ j % 2 : ℕ) : ℤ) := by
    intro j hj
    rw [← digitAt_stored hj, hstream]
  have hdv_seq : digitsVal 2 y.seq = ((m % 2 ^ y.seq.length : ℕ) : ℤ) := by
    have h1 := digitsVal_two_eq_mod m y.seq 0 ?_
    · simpa using h1
    · intro j hj
      rw [hstore j hj]
      simp
  have hdv_take : digitsVal 2 (y.seq.take y.rpt.toNat) =
      ((m % 2 ^ y.rpt.toNat : ℕ) : ℤ) := by
    have hlen : (y.seq.take y.rpt.toNat).length = y.rpt.toNat := by
      simp
      omega
    have h1 := digitsVal_two_eq_mod m (y.seq.take y.rpt.toNat) 0 ?_
    · rw [h1, hlen]
      simp
    · intro j hj
      rw [hlen] at hj
      rw [getD_take hj, hstore j (by omega)]
      simp
  have hmm : m % 2 ^ y.seq.length = m :=
    Nat.mod_eq_of_lt (lt_of_lt_of_le hmlt (Nat.pow_le_pow_right (by norm_num) (by omega)))
  have hmr : m % 2 ^ y.rpt.toNat = m := Nat.mod_eq_of_lt hmlt
  have hnum : ratNum y 2 = (m : ℤ) := by
    rw [ratNum_alt y 2 (by omega), hper, hdv_take, hdv_seq, hmm, hmr]
    ring
  rw [hspec, hnum, hden]

/-! ### Helper facts for the round-trip claims -/

theorem period_pos {x : PadicExp} (h0 : 0 ≤ x.rpt) (hlt : x.rpt < (x.seq.length : ℤ)) :
    0 < period x := by
  unfold period
  omega

theorem ratDen_pos {x : PadicExp} {p : ℤ} (hp2 : 2 ≤ p) (hper : 0 < period x) :
    0 < ratDen x p := by
  unfold ratDen
  have h1 : p ≤ p ^ period x := le_self_pow₀ (by omega) (by omega)
  have h2 : (0 : ℤ) < p ^ x.shr.toNat := by positivity
  nlinarith

/-- C1: the round trip as literally claimed, with `rational_from_padic` as the
final step, fails: for r = 1/3 and p = 5 the code returns the unreduced pair
(8, 24) while `simplify_rational (1, 3)` is (1, 3). -/
theorem claim_roundtrip_counterexample :
    ((padic_from_rational (1, 3) 5).bind (fun x =>
      (simplify_padic x).bind (fun y => rational_from_padic y 5))) = some (8, 24) ∧
    simplify_rational (1, 3) = some (1, 3) ∧
    ((padic_from_rational (1, 3) 5).bind (fun x =>
      (simplify_padic x).bind (fun y => rational_from_padic y 5))) ≠
      simplify_rational (1, 3) := by
  refine ⟨by decide, by decide, by decide⟩

/-- C1 (amended): for every rational `n/d` with positive denominator and every
prime `p ≥ 2`, converting to a p-adic expansion, simplifying, converting back
and then reducing the resulting fraction yields exactly the reduced form of
`n/d`.  (The amendment adds the final `simplify_rational`, which the source's
main program also applies; without it the result can be an unreduced pair.) -/
theorem claim_roundtrip_amended {n d p : ℤ} (hp2 : 2 ≤ p) (hpp : Prime p) (hd : 0 < d) :
    ((padic_from_rational (n, d) p).bind (fun x =>
      (simplify_padic x).bind (fun y =>
        (rational_from_padic y p).bind simplify_rational))) =
      simplify_rational (n, d) := by
  obtain ⟨x, hx, hrpt0, hrptlt, hshr0, hdig, hfirst, hcross⟩ :=
    padic_from_rational_char hp2 hpp hd
  have hne : x.seq ≠ [] := by
    intro hc
    rw [hc] at hrptlt
    simp at hrptlt
    omega
  obtain ⟨y, hy, hyr0, hyrlt, hyshr, hycross, -, -⟩ :=
    simplify_padic_char p hne hrpt0 hrptlt hshr0 hfirst
  have hyshr0 : 0 ≤ y.shr := by rw [hyshr]; exact hshr0
  have hyrat := rational_from_padic_spec y p hyr0 (le_of_lt hyrlt) hyshr0
  have hdx : 0 < ratDen x p := ratDen_pos hp2 (period_pos hrpt0 hrptlt)
  have hdy : 0 < ratDen y p := ratDen_pos hp2 (period_pos hyr0 hyrlt)
  have hychain : ratNum y p * d = n * ratDen y p := by
    have h1 : ratNum y p * d * ratDen x p = n * ratDen y p * ratDen x p := by
      calc ratNum y p * d * ratDen x p = (ratNum y p * ratDen x p) * d := by ring
        _ = (ratNum x p * ratDen y p) * d := by rw [hycross]
        _ = (ratNum x p * d) * ratDen y p := by ring
        _ = (n * ratDen x p) * ratDen y p := by rw [hcross]
        _ = n * ratDen y p * ratDen x p := by ring
    exact mul_right_cancel₀ (by omega) h1
  rw [hx, Option.some_bind, hy, Option.some_bind, hyrat, Option.some_bind]
  exact simplify_rational_eq_of_cross hdy hd hychain

/-- Witness for C1 (amended) at n = 1, d = 3, p = 5. -/
theorem claim_roundtrip_amended_witness :
    ((2 : ℤ) ≤ 5 ∧ Prime (5 : ℤ) ∧ (0 : ℤ) < 3) ∧
    ((padic_from_rational (1, 3) 5).bind (fun x =>
      (simplify_padic x).bind (fun y =>
        (rational_from_padic y 5).bind simplify_rational))) =
      simplify_rational (1, 3) :=
  ⟨⟨by norm_num, Int.prime_iff_natAbs_prime.mpr (by norm_num), by norm_num⟩,
    claim_roundtrip_amended (by norm_num) (Int.prime_iff_natAbs_prime.mpr (by norm_num))
      (by norm_num)⟩

/-- C3: `simplify_padic` is not idempotent; the code has a bug.  On the
well-formed expansion (digits [0, 1], repeatFrom 0, shift 1) for p = 2 it
strips a digit belonging to the repeating block, producing the malformed
expansion (digits [], repeatFrom -1, shift 0); simplifying that yields
(digits [0], repeatFrom 0, shift 0), so `simplify ∘ simplify ≠ simplify`. -/
theorem claim_simplify_idempotent_bug :
    wellFormed 2 ⟨[0, 1], 0, 1⟩ ∧
    simplify_padic ⟨[0, 1], 0, 1⟩ = some ⟨[], -1, 0⟩ ∧
    simplify_padic ⟨[], -1, 0⟩ = some ⟨[0], 0, 0⟩ ∧
    (simplify_padic ⟨[0, 1], 0, 1⟩).bind simplify_padic ≠ simplify_padic ⟨[0, 1], 0, 1⟩ := by
  refine ⟨by decide, by decide, by decide, by decide⟩

/-- C6: `rational_from_padic` computes exactly the claimed numerator and
denominator formulas, but does NOT normalize: on the expansion
(digits [2, 3, 1], repeatFrom 1, shift 0) at p = 5 it returns (8, 24),
whose gcd is 8, not a coprime pair. -/
theorem claim_toRational_formula_counterexample :
    rational_from_padic ⟨[2, 3, 1], 1, 0⟩ 5 = some (8, 24) ∧
    Int.gcd 8 24 ≠ 1 := by
  refine ⟨by decide, by decide⟩

/-- C6 (amended): for every expansion with repeat index in range, period at
least one and nonnegative shift, and every base p ≥ 2, `rational_from_padic`
returns exactly the pair (a·(p^t - 1) - c, (p^t - 1)·p^shift) given by the
digit accumulation formulas, and the denominator is positive; the result is
not necessarily in lowest terms. -/
theorem claim_toRational_formula_amended {x : PadicExp} {p : ℤ} (hp2 : 2 ≤ p)
    (h0 : 0 ≤ x.rpt) (hlt : x.rpt < (x.seq.length : ℤ)) (hshr : 0 ≤ x.shr) :
    rational_from_padic x p = some (ratNum x p, ratDen x p) ∧ 0 < ratDen x p :=
  ⟨rational_from_padic_spec x p h0 (le_of_lt hlt) hshr,
    ratDen_pos hp2 (period_pos h0 hlt)⟩

/-- Witness for C6 (amended) at the expansion ([2,3,1], 1, 0) and p = 5. -/
theorem claim_toRational_formula_amended_witness :
    ((0 : ℤ) ≤ 1 ∧ (1 : ℤ) < 3 ∧ (0 : ℤ) ≤ 0) ∧
    rational_from_padic ⟨[2, 3, 1], 1, 0⟩ 5 =
      some (ratNum ⟨[2, 3, 1], 1, 0⟩ 5, ratDen ⟨[2, 3, 1], 1, 0⟩ 5) ∧
    (0 : ℤ) < ratDen ⟨[2, 3, 1], 1, 0⟩ 5 :=
  ⟨⟨by norm_num, by norm_num, by norm_num⟩,
    (claim_toRational_formula_amended (x := ⟨[2, 3, 1], 1, 0⟩) (p := 5) (by norm_num)
      (by norm_num) (by norm_num) (by norm_num)).1,
    (claim_toRational_formula_amended (x := ⟨[2, 3, 1], 1, 0⟩) (p := 5) (by norm_num)
      (by norm_num) (by norm_num) (by norm_num)).2⟩

/-- C7: the code does NOT reject a malformed expansion with period length 0;
on (digits [1], repeatFrom 1, shift 0) at p = 2 it happily returns the pair
(0, 0) — a rational with denominator 0 — contradicting the specified
rejection. -/
theorem claim_period_zero_rejection_bug :
    rational_from_padic ⟨[1], 1, 0⟩ 2 = some (0, 0) := by
  decide

/-- C8: the conversion loop of `padic_from_rational` terminates for every
rational with positive denominator and every prime base: the residual states
stay in a finite integer interval, so the seen map repeats a key within the
provided fuel and the function returns a result. -/
theorem claim_conversion_terminates {n d p : ℤ} (hp2 : 2 ≤ p) (hpp : Prime p)
    (hd : 0 < d) : ∃ x, padic_from_rational (n, d) p = some x := by
  obtain ⟨x, hx, -⟩ := padic_from_rational_char hp2 hpp hd
  exact ⟨x, hx⟩

/-- Witness for C8 at n = -7, d = 12, p = 3. -/
theorem claim_conversion_terminates_witness :
    ((2 : ℤ) ≤ 3 ∧ Prime (3 : ℤ) ∧ (0 : ℤ) < 12) ∧
    ∃ x, padic_from_rational (-7, 12) 3 = some x :=
  ⟨⟨by norm_num, Int.prime_iff_natAbs_prime.mpr (by norm_num), by norm_num⟩,
    claim_conversion_terminates (by norm_num)
      (Int.prime_iff_natAbs_prime.mpr (by norm_num)) (by norm_num)⟩

/-- C10: `simplify_padic` does not preserve well-formedness; the code has a
bug.  On the well-formed expansion (digits [0, 1], repeatFrom 0, shift 2) for
p = 2 it returns (digits [], repeatFrom -1, shift 1): an empty digit list with
a negative repeat index. -/
theorem claim_simplify_wellformed_bug :
    wellFormed 2 ⟨[0, 1], 0, 2⟩ ∧
    simplify_padic ⟨[0, 1], 0, 2⟩ = some ⟨[], -1, 1⟩ ∧
    ¬ wellFormed 2 ⟨[], -1, 1⟩ := by
  refine ⟨by decide, by decide, by decide⟩


/-- C2: for every digit operation, every base, and every pair of well-formed
expansions, `padic_digitwise_op` returns an expansion whose shift is the
maximum of the two shifts and whose digit stream is the pointwise `op` of the
two operands' logical digit streams (an operand with the smaller shift is
padded with zeros at the front; stored digits repeat from the operand's own
repeat index). -/
theorem claim_combine_digitwise {op : ℤ → ℤ → ℤ} {p : ℤ} {a b : PadicExp}
    (hwa : wellFormed p a) (hwb : wellFormed p b) :
    ∃ y : PadicExp, padic_digitwise_op op a b = some y ∧
      y.shr = max a.shr b.shr ∧
      ∀ u : ℕ, digitAt y u =
        op (padStream a (b.shr - a.shr).toNat u)
          (padStream b (a.shr - b.shr).toNat u) := by
  obtain ⟨-, ha0, halt, -, -⟩ := hwa
  obtain ⟨-, hb0, hblt, -, -⟩ := hwb
  obtain ⟨y, hy, hshr, -, -, -, hdig⟩ := comb_char op a b ha0 halt hb0 hblt
  exact ⟨y, hy, hshr, hdig⟩

/-- Witness for C2 at op = digit sum mod 2, A = ([1,0], 1, 0), B = ([1], 0, 2). -/
theorem claim_combine_digitwise_witness :
    (wellFormed 2 ⟨[1, 0], 1, 0⟩ ∧ wellFormed 2 ⟨[1], 0, 2⟩) ∧
    ∃ y : PadicExp, padic_digitwise_op (sum_op 2) ⟨[1, 0], 1, 0⟩ ⟨[1], 0, 2⟩ = some y ∧
      y.shr = max (⟨[1, 0], 1, 0⟩ : PadicExp).shr (⟨[1], 0, 2⟩ : PadicExp).shr ∧
      ∀ u : ℕ, digitAt y u =
        sum_op 2
          (padStream ⟨[1, 0], 1, 0⟩
            ((⟨[1], 0, 2⟩ : PadicExp).shr - (⟨[1, 0], 1, 0⟩ : PadicExp).shr).toNat u)
          (padStream ⟨[1], 0, 2⟩
            ((⟨[1, 0], 1, 0⟩ : PadicExp).shr - (⟨[1], 0, 2⟩ : PadicExp).shr).toNat u) :=
  ⟨⟨by decide, by decide⟩, claim_combine_digitwise (p := 2) (by decide) (by decide)⟩

/-- C5: the combine loop halts, but the claimed iteration bound
len(A) + len(B) + periodA·periodB is wrong when the shifts differ: on
A = ([1], 0, 10) and B = ([1], 0, 0) under digit sum mod 2 the loop emits 11
digits while the claimed bound is 1 + 1 + 1·1 = 3. -/
theorem claim_combine_bound_counterexample :
    wellFormed 2 ⟨[1], 0, 10⟩ ∧ wellFormed 2 ⟨[1], 0, 0⟩ ∧
    padic_digitwise_op (sum_op 2) ⟨[1], 0, 10⟩ ⟨[1], 0, 0⟩ =
      some ⟨[1, 1, 1, 1, 1, 1, 1, 1, 1, 1, 0], 10, 10⟩ ∧
    ¬ (([1, 1, 1, 1, 1, 1, 1, 1, 1, 1, 0] : List ℤ).length ≤
        ([1] : List ℤ).length + ([1] : List ℤ).length +
          period ⟨[1], 0, 10⟩ * period ⟨[1], 0, 0⟩) := by
  refine ⟨by decide, by decide, by decide, by decide⟩

/-- C5 (amended): for every digit operation and every pair of well-formed
expansions the combine loop halts, and the number of emitted digits is at most
|shiftA - shiftB| + len(A) + len(B) + periodA·periodB.  (The amendment adds
the shift-difference term, which the claimed bound omits.) -/
theorem claim_combine_bound_amended {op : ℤ → ℤ → ℤ} {p : ℤ} {a b : PadicExp}
    (hwa : wellFormed p a) (hwb : wellFormed p b) :
    ∃ y : PadicExp, padic_digitwise_op op a b = some y ∧
      y.seq.length ≤ (a.shr - b.shr).natAbs + a.seq.length + b.seq.length +
        period a * period b := by
  obtain ⟨-, ha0, halt, -, -⟩ := hwa
  obtain ⟨-, hb0, hblt, -, -⟩ := hwb
  obtain ⟨y, hy, -, -, -, hlen, -⟩ := comb_char op a b ha0 halt hb0 hblt
  exact ⟨y, hy, hlen⟩

/-- Witness for C5 (amended) at the counterexample inputs of the original
bound. -/
theorem claim_combine_bound_amended_witness :
    (wellFormed 2 ⟨[1], 0, 10⟩ ∧ wellFormed 2 ⟨[1], 0, 0⟩) ∧
    ∃ y : PadicExp, padic_digitwise_op (sum_op 2) ⟨[1], 0, 10⟩ ⟨[1], 0, 0⟩ = some y ∧
      y.seq.length ≤
        ((⟨[1], 0, 10⟩ : PadicExp).shr - (⟨[1], 0, 0⟩ : PadicExp).shr).natAbs +
          (⟨[1], 0, 10⟩ : PadicExp).seq.length + (⟨[1], 0, 0⟩ : PadicExp).seq.length +
          period ⟨[1], 0, 10⟩ * period ⟨[1], 0, 0⟩ :=
  ⟨⟨by decide, by decide⟩, claim_combine_bound_amended (p := 2) (by decide) (by decide)⟩

/-- C9: for all naturals a and b, converting a and b (denominator 1) to
2-adic expansions, combining them under digit-wise addition mod 2,
simplifying, and converting back yields exactly the rational
(a XOR b, 1); in particular for a = 5 and b = 3 the result is (6, 1). -/
theorem claim_xor_pipeline :
    (∀ a b : ℕ,
      ((padic_from_rational ((a : ℤ), 1) 2).bind (fun xa =>
        (padic_from_rational ((b : ℤ), 1) 2).bind (fun xb =>
          (padic_digitwise_op (sum_op 2) xa xb).bind (fun z =>
            (simplify_padic z).bind (fun y => rational_from_padic y 2))))) =
        some (((a ^^^ b : ℕ) : ℤ), 1)) ∧
    ((padic_from_rational (((5 : ℕ) : ℤ), 1) 2).bind (fun xa =>
      (padic_from_rational (((3 : ℕ) : ℤ), 1) 2).bind (fun xb =>
        (padic_digitwise_op (sum_op 2) xa xb).bind (fun z =>
          (simplify_padic z).bind (fun y => rational_from_padic y 2))))) =
      some (6, 1) := by
  have hmain : ∀ a b : ℕ,
      ((padic_from_rational ((a : ℤ), 1) 2).bind (fun xa =>
        (padic_from_rational ((b : ℤ), 1) 2).bind (fun xb =>
          (padic_digitwise_op (sum_op 2) xa xb).bind (fun z =>
            (simplify_padic z).bind (fun y => rational_from_padic y 2))))) =
        some (((a ^^^ b : ℕ) : ℤ), 1) := by
    intro a b
    obtain ⟨xa, hxa, hxa0, hxalt, hxashr, hxastream⟩ := conv_int_stream a
    obtain ⟨xb, hxb, hxb0, hxblt, hxbshr, hxbstream⟩ := conv_int_stream b
    obtain ⟨z, hz, hzshr, hz0, hzlt, -, hzdig⟩ := comb_char (sum_op 2) xa xb hxa0 hxalt hxb0 hxblt
    have hzshr0 : z.shr = 0 := by
      rw [hzshr, hxashr, hxbshr]
      simp
    have hzs : ∀ u : ℕ, digitAt z u = (((a ^^^ b) / 2 ^ u % 2 : ℕ) : ℤ) := by
      intro u
      rw [hzdig u]
      have hpA : (xb.shr - xa.shr).toNat = 0 := by
        rw [hxashr, hxbshr]
        simp
      have hpB : (xa.shr - xb.shr).toNat = 0 := by
        rw [hxashr, hxbshr]
        simp
      have hps : ∀ (w : PadicExp) (v : ℕ), padStream w 0 v = digitAt w v := by
        intro w v
        unfold padStream
        rw [if_neg (by omega)]
        rfl
      rw [hpA, hpB, hps, hps, hxastream, hxbstream]
      unfold sum_op
      rw [bit_xor_bit]
      push_cast
      omega
    have hne : z.seq ≠ [] := by
      intro hc
      rw [hc] at hzlt
      simp at hzlt
      omega
    obtain ⟨y, hy, hy0, hylt, hyshr, -, hdigpres, hyper1⟩ :=
      simplify_padic_char 2 hne hz0 hzlt hzshr0.symm.le
        (fun hpos => absurd hpos (by rw [hzshr0]; norm_num))
    have hys : ∀ u : ℕ, digitAt y u = (((a ^^^ b) / 2 ^ u % 2 : ℕ) : ℤ) := by
      intro u
      rw [hdigpres u, hzs u]
    have hevzero : ∃ N : ℕ, ∀ u : ℕ, N ≤ u → digitAt z u = 0 := by
      refine ⟨a ^^^ b, fun u hu => ?_⟩
      rw [hzs u]
      have hdiv0 : (a ^^^ b) / 2 ^ u = 0 := by
        apply Nat.div_eq_of_lt
        calc a ^^^ b < 2 ^ (a ^^^ b) := Nat.lt_two_pow _
          _ ≤ 2 ^ u := Nat.pow_le_pow_right (by norm_num) hu
      rw [hdiv0]
      simp
    have hyper : period y = 1 := hyper1 hevzero
    have hyshr0 : y.shr = 0 := by
      rw [hyshr, hzshr0]
    have hfinal := toRational_of_bits (a ^^^ b) hy0 hylt hyshr0 hyper hys
    rw [hxa, Option.some_bind, hxb, Option.some_bind, hz, Option.some_bind, hy,
      Option.some_bind, hfinal]
  refine ⟨hmain, ?_⟩
  rw [hmain 5 3]
  decide
